import Mathlib

/-!
# zk-backup: a shallow embedding of `main.go`

`main.go` copies the persistent nodes below `/r3` from one ZooKeeper cluster to
another.  The functions of `main.go` are embedded below under their own names
(`resolveZkAddr`, `IsPathExcluded`, `CreateRecursive`, `walk`).

The ZooKeeper client (`github.com/samuel/go-zookeeper/zk`) is an external
library.  Its requests are modelled on an explicit store: a list of
`(path, node)` entries plus a list of injected request failures.  The store
follows the data model of the coordination service: a node can only be created
below an existing parent and at an absent path, and it can only be deleted when
it has no children.  Sessions, authorisation against access-control lists and
sequence-numbered names are outside the model.
-/

namespace ZkBackup

/-! ## Paths -/

/-- An absolute slash-separated path, held as the list of its components:
`/` is `[]` and `/r3/a` is `["r3", "a"]`.  Components stand for valid node
names (non-empty, without a slash). -/
abbrev Path := List String

/-- Go `path.Join(root, node)` for an absolute `root` and a node name. -/
def pathJoin (root : Path) (node : String) : Path := root ++ [node]

/-- Go `path.Dir(p)`: the parent path; the parent of `/` is `/`. -/
def pathDir (p : Path) : Path := p.dropLast

/-- The string a path is written as: `/` for the root, `/a/b` for `["a", "b"]`. -/
def pathStr (p : Path) : String :=
  match p with
  | [] => "/"
  | _ => p.foldl (fun acc c => acc ++ "/" ++ c) ""

/-! ## The ZooKeeper client library (external), as far as `main.go` uses it -/

/-- Errors of the `zk` package that the requests below can return. -/
inductive ZkErr where
  | ErrNoNode
  | ErrNodeExists
  | ErrNotEmpty
  | ErrBadVersion
  | ErrBadArguments
  | ErrConnectionClosed
deriving DecidableEq, Repr

/-- The record `zk.ACL`: a permission bit mask for one identity. -/
structure ACL where
  Perms : Nat
  Scheme : String
  ID : String
deriving DecidableEq, Repr

def PermRead : Nat := 1
def PermWrite : Nat := 2
def PermCreate : Nat := 4
def PermDelete : Nat := 8
def PermAdmin : Nat := 16
def PermAll : Nat := 31

/-- The helper `zk.WorldACL(perms)`: one entry for the identity `world:anyone`. -/
def WorldACL (perms : Nat) : List ACL := [⟨perms, "world", "anyone"⟩]

/-- The fields of `zk.Stat` that the program or its specification reads. -/
structure Stat where
  Version : Int
  EphemeralOwner : Int
deriving DecidableEq, Repr

/-- A node of a tree: payload bytes, access-control list and stat. -/
structure ZNode where
  data : List Nat
  acl : List ACL
  stat : Stat
deriving DecidableEq, Repr

/-- The requests `main.go` issues. -/
inductive Op where
  | children
  | get
  | exist
  | delete
  | create
deriving DecidableEq, Repr

/-- A session with one cluster: the nodes of its tree, in creation order, and
the requests that fail with a connection error whenever they are issued. -/
structure ZkConn where
  nodes : List (Path × ZNode)
  faults : List (Op × Path)
deriving DecidableEq, Repr

/-- The node stored at `p`, if any. -/
def lookup (p : Path) : List (Path × ZNode) → Option ZNode
  | [] => none
  | (q, n) :: rest => if q = p then some n else lookup p rest

/-- The name under which the entry at `q` is a child of `root`, if it is one. -/
def childName (root q : Path) : Option String :=
  if q ≠ [] ∧ pathDir q = root then q.getLast? else none

/-- Whether some stored node is a child of `p`. -/
def hasChildren (p : Path) (nodes : List (Path × ZNode)) : Bool :=
  nodes.any (fun e => (childName p e.1).isSome)

/-- Request `Children(path)`: the names of the children, in store order. -/
def ZkConn.Children (c : ZkConn) (root : Path) : Except ZkErr (List String) :=
  if (Op.children, root) ∈ c.faults then .error .ErrConnectionClosed
  else if lookup root c.nodes = none then .error .ErrNoNode
  else .ok (c.nodes.filterMap (fun e => childName root e.1))

/-- Request `Get(path)`.  The client returns `res.Data, &res.Stat, err`: on an
error the payload is empty and the stat is the zero value. -/
def ZkConn.Get (c : ZkConn) (p : Path) : List Nat × Stat × Option ZkErr :=
  if (Op.get, p) ∈ c.faults then ([], ⟨0, 0⟩, some .ErrConnectionClosed)
  else match lookup p c.nodes with
    | none => ([], ⟨0, 0⟩, some .ErrNoNode)
    | some n => (n.data, n.stat, none)

/-- Request `Exists(path)`: the client turns `ErrNoNode` into `false, nil`. -/
def ZkConn.Exists (c : ZkConn) (p : Path) : Except ZkErr Bool :=
  if (Op.exist, p) ∈ c.faults then .error .ErrConnectionClosed
  else .ok (lookup p c.nodes).isSome

/-- Request `Delete(path, version)`: the root cannot be deleted, the node must
exist, `version` must be `-1` or the node's version, and the node must have no
children. -/
def ZkConn.Delete (c : ZkConn) (p : Path) (version : Int) : Option ZkErr × ZkConn :=
  if (Op.delete, p) ∈ c.faults then (some .ErrConnectionClosed, c)
  else if p = [] then (some .ErrBadArguments, c)
  else match lookup p c.nodes with
    | none => (some .ErrNoNode, c)
    | some n =>
      if version ≠ -1 ∧ version ≠ n.stat.Version then (some .ErrBadVersion, c)
      else if hasChildren p c.nodes then (some .ErrNotEmpty, c)
      else (none, { c with nodes := c.nodes.filter (fun e => decide (e.1 ≠ p)) })

/-- Request `Create(path, data, flags, acl)`: the parent must exist and the path
must be absent.  Bit 0 of `flags` makes the node ephemeral (owned by the
session, here session 1).  The client returns the created path, or the empty
string together with the error.  Sequence-numbered names (bit 1 of `flags`) are
not modelled; the program always passes `flags = 0`. -/
def ZkConn.Create (c : ZkConn) (p : Path) (data : List Nat) (flags : Int) (acl : List ACL) :
    (String × Option ZkErr) × ZkConn :=
  if (Op.create, p) ∈ c.faults then (("", some .ErrConnectionClosed), c)
  else if p ≠ [] ∧ lookup (pathDir p) c.nodes = none then (("", some .ErrNoNode), c)
  else if (lookup p c.nodes).isSome then (("", some .ErrNodeExists), c)
  else
    ((pathStr p, none),
      { c with nodes := c.nodes ++ [(p, ⟨data, acl, ⟨0, if flags % 2 = 1 then 1 else 0⟩⟩)] })

/-! ## `main.go` -/

/-- Constant `PERM_FILE = zk.PermAdmin | zk.PermRead | zk.PermWrite`. -/
def PERM_FILE : Nat := PermAdmin ||| PermRead ||| PermWrite

/-- Constant `PERM_DIRECTORY`: administer, create, delete, read, write. -/
def PERM_DIRECTORY : Nat := PermAdmin ||| PermCreate ||| PermDelete ||| PermRead ||| PermWrite

/-- Go `strings.Split(s, ",")` on the characters of `s`: the pieces between the
commas; always at least one piece. -/
def splitComma : List Char → List (List Char)
  | [] => [[]]
  | c :: cs =>
    if c = ',' then [] :: splitComma cs
    else match splitComma cs with
      | [] => [[c]]
      | piece :: pieces => (c :: piece) :: pieces

/-- Go `strings.Split(s, ",")`. -/
def stringsSplitComma (s : String) : List String :=
  (splitComma s.data).map String.mk

/-- The loop of `resolveZkAddr`: append the resolution of every part that
resolves, skip (and log) the others. -/
def resolveLoop (resolveIPv4Addr : String → Except String String) :
    List String → List String → List String
  | [], resolved => resolved
  | part :: parts, resolved =>
    match resolveIPv4Addr part with
    | .error _ => resolveLoop resolveIPv4Addr parts resolved
    | .ok r => resolveLoop resolveIPv4Addr parts (resolved ++ [r])

/-- Function `resolveZkAddr`, with the per-entry resolution `resolveIPv4Addr`
(DNS lookup) as a parameter. -/
def resolveZkAddr (resolveIPv4Addr : String → Except String String) (zkAddr : String) :
    Except String (List String) :=
  let parts := stringsSplitComma zkAddr
  let resolved := resolveLoop resolveIPv4Addr parts []
  if resolved.length = 0 then .error ("no valid address found in " ++ zkAddr)
  else .ok resolved

/-- Function `IsPathExcluded`. -/
def IsPathExcluded (paths : List String) (path : String) : Bool :=
  match paths with
  | [] => false
  | p :: rest => if p = path then true else IsPathExcluded rest path

/-- Function `CreateRecursive` with an explicit recursion budget; `none` means
the budget ran out.  The result is `((pathCreated, err), connection)`. -/
def CreateRecursiveAux : Nat → ZkConn → Path → List Nat → Int → List ACL →
    Option ((String × Option ZkErr) × ZkConn)
  | 0, _, _, _, _, _ => none
  | fuel + 1, zconn, zkPath, value, flags, aclv =>
    match zconn.Exists zkPath with
    | .error err => some (("", some err), zconn)
    | .ok found =>
      let zconn1 := if found then (zconn.Delete zkPath (-1)).2 else zconn
      let r := zconn1.Create zkPath value flags aclv
      if r.1.2 = some .ErrNoNode then
        let dirAclv := aclv.map (fun acl => { acl with Perms := PERM_DIRECTORY })
        match CreateRecursiveAux fuel r.2 (pathDir zkPath) [] flags dirAclv with
        | none => none
        | some ((_, err), zconn3) =>
          if err ≠ none ∧ err ≠ some .ErrNodeExists then some (("", err), zconn3)
          else
            let r2 := zconn3.Create zkPath value flags aclv
            some ((r2.1.1, none), r2.2)
      else some ((r.1.1, none), r.2)

/-- Function `CreateRecursive`: the recursion climbs one component per call, so
a budget of one more than the number of components is enough. -/
def CreateRecursive (zconn : ZkConn) (zkPath : Path) (value : List Nat) (flags : Int)
    (aclv : List ACL) : Option ((String × Option ZkErr) × ZkConn) :=
  CreateRecursiveAux (zkPath.length + 1) zconn zkPath value flags aclv

/-- What a run of `walk` can see and change: the target session and the
requests sent to the source so far. -/
structure World where
  tconn : ZkConn
  sreads : List (Op × Path)
deriving DecidableEq, Repr

/-- How a call of `walk` ends: it returns, the process exits with a status, or
the recursion budget of the model ran out. -/
inductive Outcome where
  | completed (w : World)
  | exited (code : Nat) (w : World)
  | outOfFuel
deriving DecidableEq, Repr

/-- The `for` loop of `walk` over the children of `root`.  `recurse` is the
recursive call `walk(fullpath, ...)`.  A `return` inside the loop ends the call
of `walk`; `os.Exit(1)` ends the run.  Log lines are not modelled. -/
def walkChildren (recurse : Path → World → Outcome) (root : Path) (sconn : ZkConn)
    (excludePaths : List String) : List String → World → Outcome
  | [], w => .completed w
  | node :: rest, w =>
    let fullpath := pathJoin root node
    if IsPathExcluded excludePaths (pathStr fullpath) then .completed w
    else
      let g := sconn.Get fullpath
      let w1 : World := { w with sreads := w.sreads ++ [(Op.get, fullpath)] }
      if g.2.1.EphemeralOwner = 0 then
        match CreateRecursive w1.tconn fullpath g.1 0 (WorldACL PermAll) with
        | none => .outOfFuel
        | some ((_, some _), t) => .exited 1 { w1 with tconn := t }
        | some ((_, none), t) =>
          match recurse fullpath { w1 with tconn := t } with
          | .completed w2 => walkChildren recurse root sconn excludePaths rest w2
          | o => o
      else
        match recurse fullpath w1 with
        | .completed w2 => walkChildren recurse root sconn excludePaths rest w2
        | o => o

/-- Function `walk`, with a recursion budget for the depth of the source tree. -/
def walk : Nat → Path → ZkConn → World → List String → Outcome
  | 0, _, _, _, _ => .outOfFuel
  | fuel + 1, root, sconn, w, excludePaths =>
    let w0 : World := { w with sreads := w.sreads ++ [(Op.children, root)] }
    match sconn.Children root with
    | .error _ => .exited 1 w0
    | .ok children =>
      walkChildren (fun p w1 => walk fuel p sconn w1 excludePaths) root sconn excludePaths
        children w0

/-- The longest path stored, in components: a bound on the depth of a tree. -/
def maxDepth : List (Path × ZNode) → Nat
  | [] => 0
  | (q, _) :: rest => max q.length (maxDepth rest)

/-- The access-control list `dirAclv` that `CreateRecursive` builds for a
missing parent: the same identities, each with `PERM_DIRECTORY`. -/
def dirAcl (aclv : List ACL) : List ACL :=
  aclv.map (fun acl => { acl with Perms := PERM_DIRECTORY })

/-- A well-formed tree: the root exists and every node has its parent. -/
def WellFormed (nodes : List (Path × ZNode)) : Prop :=
  lookup [] nodes ≠ none ∧ ∀ q, lookup q nodes ≠ none → lookup (pathDir q) nodes ≠ none

/-- What `CreateRecursive(zconn, p, v, 0, acl)` does to a well-formed store
`c` without injected failures: `s` is the returned path, `c2` the store after
the call. -/
structure CreateSpec (c : ZkConn) (p : Path) (v : List Nat) (acl : List ACL) (s : String)
    (c2 : ZkConn) : Prop where
  faults : c2.faults = []
  wf : WellFormed c2.nodes
  fresh : lookup p c.nodes = none ∨ (p ≠ [] ∧ hasChildren p c.nodes = false) →
    lookup p c2.nodes = some ⟨v, acl, ⟨0, 0⟩⟩ ∧ s = pathStr p
  kept : lookup p c.nodes ≠ none → p = [] ∨ hasChildren p c.nodes = true →
    lookup p c2.nodes = lookup p c.nodes ∧ s = ""
  others : ∀ q, q ≠ p → lookup q c.nodes ≠ none → lookup q c2.nodes = lookup q c.nodes
  made : ∀ q, q ≠ p → lookup q c.nodes = none → q <+: p →
    lookup q c2.nodes = some ⟨[], dirAcl acl, ⟨0, 0⟩⟩
  outside : ∀ q, ¬ q <+: p → lookup q c2.nodes = lookup q c.nodes

/-- The state a call of `walk` ended in, when it ended. -/
def Outcome.world? : Outcome → Option World
  | .completed w => some w
  | .exited _ w => some w
  | .outOfFuel => none

/-- One pass through the body of the loop of `walk` for a child that is not
excluded: read the node, replicate it when it is persistent, recurse. -/
def visit (recurse : Path → World → Outcome) (sconn : ZkConn) (fullpath : Path) (w : World) :
    Outcome :=
  let g := sconn.Get fullpath
  let w1 : World := { w with sreads := w.sreads ++ [(Op.get, fullpath)] }
  if g.2.1.EphemeralOwner = 0 then
    match CreateRecursive w1.tconn fullpath g.1 0 (WorldACL PermAll) with
    | none => .outOfFuel
    | some ((_, some _), t) => .exited 1 { w1 with tconn := t }
    | some ((_, none), t) => recurse fullpath { w1 with tconn := t }
  else recurse fullpath w1

/-- The state `w2` differs from `w` at most by the target nodes at paths in `T`
and by further source requests, all at paths in `R`. -/
def Confined (T R : Path → Prop) (w w2 : World) : Prop :=
  w2.tconn.faults = w.tconn.faults ∧
  (∀ q, ¬ T q → lookup q w2.tconn.nodes = lookup q w.tconn.nodes) ∧
  ∃ new, w2.sreads = w.sreads ++ new ∧ ∀ e ∈ new, R e.2

/-- The resolved values of the entries that resolve, in input order. -/
def resolvedEntries (resolveIPv4Addr : String → Except String String) (parts : List String) :
    List String :=
  parts.filterMap (fun part =>
    match resolveIPv4Addr part with
    | .ok r => some r
    | .error _ => none)

/-- Every node of the target `t` is the root or lies on the way from the root
to a persistent node of the source `src`. -/
def OnPersistentWay (src t : List (Path × ZNode)) : Prop :=
  ∀ q, lookup q t ≠ none →
    q = [] ∨ ∃ v n, lookup v src = some n ∧ n.stat.EphemeralOwner = 0 ∧ q <+: v

/-- The state of the target during a run of `walk` from `top` over the source
`src`: no injected failures, a well-formed tree, and every persistent node of
the source strictly below `top` that exists in the target holds the payload of
the source and the fully open access-control list. -/
structure Good (src : List (Path × ZNode)) (top : Path) (w : World) : Prop where
  faults : w.tconn.faults = []
  wf : WellFormed w.tconn.nodes
  content : ∀ p n, top <+: p → p ≠ top → lookup p src = some n → n.stat.EphemeralOwner = 0 →
    lookup p w.tconn.nodes ≠ none →
    lookup p w.tconn.nodes = some ⟨n.data, WorldACL PermAll, ⟨0, 0⟩⟩

/-- Every persistent node of the source on the way from `top` (exclusive) to
`cur` (inclusive) exists in the target. -/
def AncestorsPresent (src : List (Path × ZNode)) (top cur : Path) (w : World) : Prop :=
  ∀ r n, r <+: cur → top <+: r → r ≠ top → lookup r src = some n →
    n.stat.EphemeralOwner = 0 → lookup r w.tconn.nodes ≠ none

/-- Every persistent node of the source at or below `q` exists in the target. -/
def Covered (src : List (Path × ZNode)) (q : Path) (w : World) : Prop :=
  ∀ p n, q <+: p → lookup p src = some n → n.stat.EphemeralOwner = 0 →
    lookup p w.tconn.nodes ≠ none

/-- No node of the target was removed between `w` and `w2`. -/
def Grows (w w2 : World) : Prop :=
  ∀ p, lookup p w.tconn.nodes ≠ none → lookup p w2.tconn.nodes ≠ none

/-- A decision procedure for `WellFormed`. -/
def wellFormedCheck (nodes : List (Path × ZNode)) : Bool :=
  (lookup [] nodes).isSome && nodes.all (fun e => (lookup (pathDir e.1) nodes).isSome)

/-- The inverse of `splitComma`: the pieces with a comma between neighbours. -/
def joinComma : List (List Char) → List Char
  | [] => []
  | [piece] => piece
  | piece :: next :: rest => piece ++ ',' :: joinComma (next :: rest)

/-! ## Address resolution and the exclusion filter -/

theorem resolveLoop_eq (f : String → Except String String) (parts acc : List String) :
    resolveLoop f parts acc
      = acc ++ parts.filterMap (fun p => match f p with | .ok r => some r | .error _ => none) := by
  induction parts generalizing acc with
  | nil => simp [resolveLoop]
  | cons part parts ih =>
    cases h : f part with
    | error e => simp [resolveLoop, h, ih]
    | ok r => simp [resolveLoop, h, ih]

theorem splitComma_ne_nil (cs : List Char) : splitComma cs ≠ [] := by
  induction cs with
  | nil => simp [splitComma]
  | cons c cs ih =>
    unfold splitComma
    split
    · simp
    · split <;> simp

theorem IsPathExcluded_eq_true_iff (E : List String) (p : String) :
    IsPathExcluded E p = true ↔ p ∈ E := by
  induction E with
  | nil => simp [IsPathExcluded]
  | cons e E ih =>
    unfold IsPathExcluded
    by_cases h : e = p
    · simp [h]
    · simp [h, ih, Ne.symm h]

/-! ## The store -/

theorem lookup_append (p : Path) (l1 l2 : List (Path × ZNode)) :
    lookup p (l1 ++ l2) = match lookup p l1 with
      | some n => some n
      | none => lookup p l2 := by
  induction l1 with
  | nil => simp [lookup]
  | cons e l1 ih =>
    obtain ⟨q, n⟩ := e
    by_cases h : q = p
    · simp [lookup, h]
    · simp [lookup, h, ih]

theorem lookup_filter_ne (p q : Path) (l : List (Path × ZNode)) :
    lookup p (l.filter (fun e => decide (e.1 ≠ q))) = if p = q then none else lookup p l := by
  induction l with
  | nil => simp [lookup]
  | cons e l ih =>
    obtain ⟨r, n⟩ := e
    rw [List.filter_cons]
    by_cases hrq : r = q
    · subst hrq
      by_cases hpr : p = r
      · subst hpr; simpa using ih
      · have hrp : ¬ r = p := fun h => hpr h.symm
        simpa [lookup, hpr, hrp] using ih
    · by_cases hrp : r = p
      · subst hrp; simp [hrq, lookup]
      · simpa [hrq, lookup, hrp] using ih

theorem childName_eq_some (root q : Path) (c : String) :
    childName root q = some c ↔ q = root ++ [c] := by
  unfold childName pathDir
  constructor
  · intro h
    split at h
    · rename_i hq
      obtain ⟨hne, hd⟩ := hq
      have := List.dropLast_append_getLast? c h
      rw [← this, hd]
    · simp at h
  · intro h
    subst h
    simp

theorem childName_isSome (root q : Path) :
    (childName root q).isSome = true ↔ q ≠ [] ∧ pathDir q = root := by
  unfold childName
  by_cases h : q ≠ [] ∧ pathDir q = root
  · rw [if_pos h]
    cases hq : q.getLast? with
    | none => simp [List.getLast?_eq_none_iff] at hq; exact absurd hq h.1
    | some c => simpa using h
  · rw [if_neg h]; simpa using h

theorem hasChildren_eq_false (p : Path) (nodes : List (Path × ZNode)) :
    hasChildren p nodes = false ↔ ∀ q, lookup q nodes ≠ none → q ≠ [] → pathDir q ≠ p := by
  induction nodes with
  | nil => simp [hasChildren, lookup]
  | cons e nodes ih =>
    obtain ⟨r, n⟩ := e
    have hstep : hasChildren p ((r, n) :: nodes)
        = ((childName p r).isSome || hasChildren p nodes) := by
      simp [hasChildren]
    rw [hstep, Bool.or_eq_false_iff, ih]
    constructor
    · rintro ⟨h1, h2⟩ q hq hne hd
      by_cases hrq : r = q
      · subst hrq
        have : (childName p r).isSome = true := (childName_isSome p r).2 ⟨hne, hd⟩
        rw [h1] at this; exact Bool.false_ne_true this
      · simp only [lookup, hrq, if_false] at hq
        exact h2 q hq hne hd
    · intro h
      constructor
      · cases hc : (childName p r).isSome with
        | false => rfl
        | true =>
          obtain ⟨hne, hd⟩ := (childName_isSome p r).1 hc
          exact absurd hd (h r (by simp [lookup]) hne)
      · intro q hq hne hd
        by_cases hrq : r = q
        · subst hrq; exact h r (by simp [lookup]) hne hd
        · exact h q (by simp [lookup, hrq, hq]) hne hd

theorem pathDir_isPrefix (p : Path) : pathDir p <+: p := List.dropLast_prefix p

theorem Delete_faults (c : ZkConn) (p : Path) (v : Int) : (c.Delete p v).2.faults = c.faults := by
  unfold ZkConn.Delete
  repeat (first | rfl | split)

theorem Delete_lookup_ne (c : ZkConn) (p q : Path) (v : Int) (h : q ≠ p) :
    lookup q (c.Delete p v).2.nodes = lookup q c.nodes := by
  unfold ZkConn.Delete
  repeat (first | rfl | split)
  show lookup q (c.nodes.filter _) = _
  rw [lookup_filter_ne, if_neg h]

theorem Create_faults (c : ZkConn) (p : Path) (d : List Nat) (f : Int) (a : List ACL) :
    (c.Create p d f a).2.faults = c.faults := by
  unfold ZkConn.Create
  repeat (first | rfl | split)

theorem Create_lookup_ne (c : ZkConn) (p q : Path) (d : List Nat) (f : Int) (a : List ACL)
    (h : q ≠ p) : lookup q (c.Create p d f a).2.nodes = lookup q c.nodes := by
  unfold ZkConn.Create
  have hpq : ¬ p = q := fun e => h e.symm
  split
  · rfl
  · split
    · rfl
    · split
      · rfl
      · show lookup q (c.nodes ++ _) = _
        rw [lookup_append]
        simp only [lookup, hpq, if_false]
        cases lookup q c.nodes <;> rfl

/-- Frame property of `CreateRecursive`: whatever the store and the injected
failures, it changes nothing but the nodes on the way from the root to
`zkPath`. -/
theorem CreateRecursiveAux_frame (fuel : Nat) :
    ∀ (c : ZkConn) (p : Path) (d : List Nat) (f : Int) (a : List ACL)
      (r : String × Option ZkErr) (c2 : ZkConn),
      CreateRecursiveAux fuel c p d f a = some (r, c2) →
      c2.faults = c.faults ∧ ∀ q, ¬ q <+: p → lookup q c2.nodes = lookup q c.nodes := by
  induction fuel with
  | zero => intro c p d f a r c2 h; simp [CreateRecursiveAux] at h
  | succ fuel ih =>
    intro c p d f a r c2 h
    unfold CreateRecursiveAux at h
    cases hex : c.Exists p with
    | error e =>
      simp only [hex] at h
      obtain ⟨-, rfl⟩ := Prod.mk.inj (Option.some.inj h)
      exact ⟨rfl, fun q _ => rfl⟩
    | ok found =>
      simp only [hex] at h
      have h1f : (if found = true then (c.Delete p (-1)).2 else c).faults = c.faults := by
        split
        · exact Delete_faults c p (-1)
        · rfl
      have h1l : ∀ q, q ≠ p →
          lookup q (if found = true then (c.Delete p (-1)).2 else c).nodes = lookup q c.nodes := by
        intro q hq
        split
        · exact Delete_lookup_ne c p q (-1) hq
        · rfl
      generalize (if found = true then (c.Delete p (-1)).2 else c) = c1 at h h1f h1l
      have hne : ∀ q, ¬ q <+: p → q ≠ p := fun q hq e => hq (e ▸ List.prefix_refl _)
      split at h
      · cases hrec : CreateRecursiveAux fuel (c1.Create p d f a).2 (pathDir p) [] f
            (List.map (fun acl => { acl with Perms := PERM_DIRECTORY }) a) with
        | none => simp [hrec] at h
        | some res =>
          obtain ⟨⟨s3, err⟩, c3⟩ := res
          simp only [hrec] at h
          obtain ⟨hf3, hl3⟩ := ih _ _ _ _ _ _ _ hrec
          have hl3b : ∀ q, ¬ q <+: p → lookup q c3.nodes = lookup q c.nodes := by
            intro q hq
            rw [hl3 q (fun hq2 => hq (hq2.trans (pathDir_isPrefix p))),
              Create_lookup_ne _ _ _ _ _ _ (hne q hq), h1l q (hne q hq)]
          split at h
          · obtain ⟨-, rfl⟩ := Prod.mk.inj (Option.some.inj h)
            exact ⟨by rw [hf3, Create_faults, h1f], hl3b⟩
          · obtain ⟨-, rfl⟩ := Prod.mk.inj (Option.some.inj h)
            refine ⟨by rw [Create_faults, hf3, Create_faults, h1f], fun q hq => ?_⟩
            rw [Create_lookup_ne _ _ _ _ _ _ (hne q hq), hl3b q hq]
      · obtain ⟨-, rfl⟩ := Prod.mk.inj (Option.some.inj h)
        refine ⟨by rw [Create_faults, h1f], fun q hq => ?_⟩
        rw [Create_lookup_ne _ _ _ _ _ _ (hne q hq), h1l q (hne q hq)]

/-! ## `CreateRecursive` on a well-formed store without failures -/

theorem isPrefix_pathDir_of_ne {q p : Path} (h : q <+: p) (hne : q ≠ p) : q <+: pathDir p := by
  obtain ⟨t, rfl⟩ := h
  have ht : t ≠ [] := by
    intro ht; subst ht; simp at hne
  unfold pathDir
  rw [List.dropLast_append_of_ne_nil _ ht]
  exact List.prefix_append _ _

theorem pathDir_length_lt {p : Path} (h : p ≠ []) : (pathDir p).length < p.length := by
  unfold pathDir
  rw [List.length_dropLast]
  have : 0 < p.length := List.length_pos.2 h
  omega

theorem pathDir_ne_self {p : Path} (h : p ≠ []) : pathDir p ≠ p := by
  intro e
  have := pathDir_length_lt h
  rw [e] at this
  exact lt_irrefl _ this

theorem WellFormed.lookup_isPrefix {nodes : List (Path × ZNode)} (hwf : WellFormed nodes) :
    ∀ (n : Nat) (p q : Path), p.length = n → lookup p nodes ≠ none → q <+: p →
      lookup q nodes ≠ none := by
  intro n
  induction n with
  | zero =>
    intro p q hp hl hq
    have hp0 : p = [] := List.length_eq_zero.1 hp
    subst hp0
    rw [List.prefix_nil.1 hq]; exact hl
  | succ n ih =>
    intro p q hp hl hq
    by_cases hqp : q = p
    · rw [hqp]; exact hl
    · have hne : p ≠ [] := by intro e; subst e; simp at hp
      refine ih (pathDir p) q ?_ (hwf.2 p hl) (isPrefix_pathDir_of_ne hq hqp)
      unfold pathDir
      rw [List.length_dropLast, hp]; rfl

theorem WellFormed.of_isPrefix {nodes : List (Path × ZNode)} (hwf : WellFormed nodes)
    {p q : Path} (hl : lookup p nodes ≠ none) (hq : q <+: p) : lookup q nodes ≠ none :=
  hwf.lookup_isPrefix p.length p q rfl hl hq

theorem lookup_append_one (q p : Path) (n : ZNode) (nodes : List (Path × ZNode)) :
    lookup q (nodes ++ [(p, n)])
      = if lookup q nodes ≠ none then lookup q nodes else if p = q then some n else none := by
  rw [lookup_append]
  cases h : lookup q nodes with
  | none => simp [lookup]
  | some m => simp

theorem WellFormed.append_one {nodes : List (Path × ZNode)} (hwf : WellFormed nodes)
    (p : Path) (n : ZNode) (hpar : lookup (pathDir p) nodes ≠ none) :
    WellFormed (nodes ++ [(p, n)]) := by
  have key : ∀ q, lookup q nodes ≠ none → lookup q (nodes ++ [(p, n)]) ≠ none := by
    intro q hq
    rw [lookup_append_one, if_pos hq]; exact hq
  refine ⟨key _ hwf.1, fun q hq => ?_⟩
  by_cases hq0 : lookup q nodes ≠ none
  · exact key _ (hwf.2 q hq0)
  · rw [lookup_append_one, if_neg hq0] at hq
    by_cases hpq : p = q
    · subst hpq; exact key _ hpar
    · simp [hpq] at hq

theorem WellFormed.filter_leaf {nodes : List (Path × ZNode)} (hwf : WellFormed nodes)
    (p : Path) (hp : p ≠ []) (hleaf : hasChildren p nodes = false) :
    WellFormed (nodes.filter (fun e => decide (e.1 ≠ p))) := by
  have hch := (hasChildren_eq_false p nodes).1 hleaf
  refine ⟨?_, fun q hq => ?_⟩
  · rw [lookup_filter_ne, if_neg (Ne.symm hp)]; exact hwf.1
  · rw [lookup_filter_ne] at hq
    by_cases hqp : q = p
    · simp [hqp] at hq
    · rw [if_neg hqp] at hq
      rw [lookup_filter_ne]
      by_cases hq0 : q = []
      · subst hq0
        have : pathDir ([] : Path) = [] := rfl
        rw [this, if_neg (Ne.symm hp)]; exact hq
      · rw [if_neg (hch q hq hq0)]; exact hwf.2 q hq

theorem Exists_ok (c : ZkConn) (hf : c.faults = []) (p : Path) :
    c.Exists p = .ok (lookup p c.nodes).isSome := by
  simp [ZkConn.Exists, hf]

theorem Create_ok (c : ZkConn) (hf : c.faults = []) (p : Path) (d : List Nat) (a : List ACL)
    (hpar : p = [] ∨ lookup (pathDir p) c.nodes ≠ none) (hp : lookup p c.nodes = none) :
    c.Create p d 0 a = ((pathStr p, none), ⟨c.nodes ++ [(p, ⟨d, a, ⟨0, 0⟩⟩)], c.faults⟩) := by
  unfold ZkConn.Create
  have h1 : ¬ (p ≠ [] ∧ lookup (pathDir p) c.nodes = none) := by
    rintro ⟨h, h2⟩
    rcases hpar with h3 | h3
    · exact h h3
    · exact h3 h2
  simp [hf, h1, hp]

theorem Create_noNode (c : ZkConn) (hf : c.faults = []) (p : Path) (d : List Nat) (f : Int)
    (a : List ACL) (hp : p ≠ []) (hpar : lookup (pathDir p) c.nodes = none) :
    c.Create p d f a = (("", some .ErrNoNode), c) := by
  unfold ZkConn.Create
  simp [hf, hp, hpar]

theorem Create_exists (c : ZkConn) (hf : c.faults = []) (p : Path) (d : List Nat) (f : Int)
    (a : List ACL) (hpar : p = [] ∨ lookup (pathDir p) c.nodes ≠ none)
    (hp : lookup p c.nodes ≠ none) :
    c.Create p d f a = (("", some .ErrNodeExists), c) := by
  unfold ZkConn.Create
  have h1 : ¬ (p ≠ [] ∧ lookup (pathDir p) c.nodes = none) := by
    rintro ⟨h, h2⟩
    rcases hpar with h3 | h3
    · exact h h3
    · exact h3 h2
  have h2 : (lookup p c.nodes).isSome = true := by
    cases h : lookup p c.nodes with
    | none => exact absurd h hp
    | some n => rfl
  simp [hf, h1, h2]

theorem Delete_ok (c : ZkConn) (hf : c.faults = []) (p : Path) (hp : p ≠ [])
    (hl : lookup p c.nodes ≠ none) (hleaf : hasChildren p c.nodes = false) :
    c.Delete p (-1) = (none, ⟨c.nodes.filter (fun e => decide (e.1 ≠ p)), c.faults⟩) := by
  unfold ZkConn.Delete
  cases h : lookup p c.nodes with
  | none => exact absurd h hl
  | some n => simp [hf, hp, hleaf]

theorem Delete_kept (c : ZkConn) (p : Path) (h : p = [] ∨ hasChildren p c.nodes = true) :
    (c.Delete p (-1)).2 = c := by
  unfold ZkConn.Delete
  split
  · rfl
  · split
    · rfl
    · rename_i hp
      have hc : hasChildren p c.nodes = true := h.resolve_left hp
      split
      · rfl
      · split
        · rfl
        · simp [hc]

theorem not_isPrefix_pathDir {p : Path} (hp : p ≠ []) : ¬ p <+: pathDir p := by
  intro h
  have h1 := h.length_le
  have h2 := pathDir_length_lt hp
  omega

theorem dirAcl_dirAcl (acl : List ACL) : dirAcl (dirAcl acl) = dirAcl acl := by
  simp [dirAcl, Function.comp_def]

theorem CreateRecursiveAux_succ (fuel : Nat) (c : ZkConn) (p : Path) (v : List Nat) (f : Int)
    (acl : List ACL) :
    CreateRecursiveAux (fuel + 1) c p v f acl =
      match c.Exists p with
      | .error err => some (("", some err), c)
      | .ok found =>
        if ((if found then (c.Delete p (-1)).2 else c).Create p v f acl).1.2 = some .ErrNoNode then
          match CreateRecursiveAux fuel ((if found then (c.Delete p (-1)).2 else c).Create p v f acl).2
              (pathDir p) [] f (dirAcl acl) with
          | none => none
          | some ((_, err), zconn3) =>
            if err ≠ none ∧ err ≠ some .ErrNodeExists then some (("", err), zconn3)
            else some (((zconn3.Create p v f acl).1.1, none), (zconn3.Create p v f acl).2)
        else some ((((if found then (c.Delete p (-1)).2 else c).Create p v f acl).1.1, none),
          ((if found then (c.Delete p (-1)).2 else c).Create p v f acl).2) := by
  rfl

theorem CreateRecursiveAux_spec (fuel : Nat) :
    ∀ (c : ZkConn) (p : Path) (v : List Nat) (acl : List ACL),
      c.faults = [] → WellFormed c.nodes → p.length < fuel →
      ∃ s c2, CreateRecursiveAux fuel c p v 0 acl = some ((s, none), c2) ∧
        CreateSpec c p v acl s c2 := by
  induction fuel with
  | zero => intro c p v acl _ _ h; omega
  | succ fuel ih =>
    intro c p v acl hf hwf hlen
    rw [CreateRecursiveAux_succ, Exists_ok c hf]
    by_cases hex : lookup p c.nodes = none
    · -- the node is absent
      have hp : p ≠ [] := by intro e; subst e; exact hwf.1 hex
      simp only [hex, Option.isSome_none, Bool.false_eq_true, if_false]
      by_cases hpar : lookup (pathDir p) c.nodes = none
      · -- the parent is missing: materialise it first
        rw [Create_noNode c hf p v 0 acl hp hpar]
        simp only [if_true]
        obtain ⟨s3, c3, hrec, hs⟩ := ih c (pathDir p) [] (dirAcl acl) hf hwf
          (by have := pathDir_length_lt hp; omega)
        rw [hrec]
        have hpar3 : lookup (pathDir p) c3.nodes ≠ none := by
          rw [(hs.fresh (Or.inl hpar)).1]; simp
        have hp3 : lookup p c3.nodes = none := by
          rw [hs.outside p (not_isPrefix_pathDir hp), hex]
        simp only [ne_eq, not_true_eq_false, false_and, if_false]
        rw [Create_ok c3 hs.faults p v acl (Or.inr hpar3) hp3]
        refine ⟨_, _, rfl, ?_⟩
        have hnew : ∀ q, lookup q (c3.nodes ++ [(p, ⟨v, acl, ⟨0, 0⟩⟩)])
            = if q = p then some ⟨v, acl, ⟨0, 0⟩⟩ else lookup q c3.nodes := by
          intro q
          rw [lookup_append_one]
          by_cases hqp : q = p
          · subst hqp; simp [hp3]
          · have : ¬ p = q := fun e => hqp e.symm
            simp only [this, hqp, if_false]
            split
            · rfl
            · rename_i h; exact (not_not.1 h).symm
        constructor
        · exact hs.faults
        · exact hs.wf.append_one p _ hpar3
        · intro _; exact ⟨by rw [hnew, if_pos rfl], rfl⟩
        · intro h; exact absurd hex h
        · intro q hqp hq
          rw [hnew, if_neg hqp]
          by_cases hqd : q = pathDir p
          · subst hqd; exact absurd hpar hq
          · exact hs.others q hqd hq
        · intro q hqp hq hpre
          rw [hnew, if_neg hqp]
          by_cases hqd : q = pathDir p
          · subst hqd
            rw [(hs.fresh (Or.inl hpar)).1]
          · rw [hs.made q hqd hq (isPrefix_pathDir_of_ne hpre hqp), dirAcl_dirAcl]
        · intro q hq
          have hqp : q ≠ p := fun e => hq (e ▸ List.prefix_refl _)
          rw [hnew, if_neg hqp]
          exact hs.outside q (fun h => hq (h.trans (pathDir_isPrefix p)))
      · -- the parent exists: the node is created at once
        rw [Create_ok c hf p v acl (Or.inr hpar) hex]
        simp only [reduceCtorEq, if_false]
        refine ⟨_, _, rfl, ?_⟩
        have hnew : ∀ q, lookup q (c.nodes ++ [(p, ⟨v, acl, ⟨0, 0⟩⟩)])
            = if q = p then some ⟨v, acl, ⟨0, 0⟩⟩ else lookup q c.nodes := by
          intro q
          rw [lookup_append_one]
          by_cases hqp : q = p
          · subst hqp; simp [hex]
          · have : ¬ p = q := fun e => hqp e.symm
            simp only [this, hqp, if_false]
            split
            · rfl
            · rename_i h; exact (not_not.1 h).symm
        constructor
        · exact hf
        · exact hwf.append_one p _ hpar
        · intro _; exact ⟨by rw [hnew, if_pos rfl], rfl⟩
        · intro h; exact absurd hex h
        · intro q hqp hq; rw [hnew, if_neg hqp]
        · intro q hqp hq hpre
          exact absurd hq (hwf.of_isPrefix hpar (isPrefix_pathDir_of_ne hpre hqp))
        · intro q hq
          have hqp : q ≠ p := fun e => hq (e ▸ List.prefix_refl _)
          rw [hnew, if_neg hqp]
    · -- the node exists
      have hsome : (lookup p c.nodes).isSome = true := by
        cases h : lookup p c.nodes with
        | none => exact absurd h hex
        | some n => rfl
      simp only [hsome, if_true]
      have hparent : p = [] ∨ lookup (pathDir p) c.nodes ≠ none := Or.inr (hwf.2 p hex)
      by_cases hkeep : p = [] ∨ hasChildren p c.nodes = true
      · -- it cannot be deleted: the store stays as it is
        rw [Delete_kept c p hkeep, Create_exists c hf p v 0 acl hparent hex]
        simp only [reduceCtorEq, if_false]
        refine ⟨_, _, rfl, ?_⟩
        constructor
        · exact hf
        · exact hwf
        · rintro (h | ⟨h1, h2⟩)
          · exact absurd h hex
          · rcases hkeep with h3 | h3
            · exact absurd h3 h1
            · rw [h2] at h3; exact absurd h3 (by simp)
        · intro _ _; exact ⟨rfl, rfl⟩
        · intro q _ _; rfl
        · intro q hqp hq hpre; exact absurd hq (hwf.of_isPrefix hex hpre)
        · intro q _; rfl
      · -- it is a leaf: deleted, then created again
        have hp : p ≠ [] := fun e => hkeep (Or.inl e)
        have hleaf : hasChildren p c.nodes = false := by
          cases h : hasChildren p c.nodes with
          | false => rfl
          | true => exact absurd (Or.inr h) hkeep
        rw [Delete_ok c hf p hp hex hleaf]
        have hl1 : ∀ q, lookup q (c.nodes.filter (fun e => decide (e.1 ≠ p)))
            = if q = p then none else lookup q c.nodes := fun q => lookup_filter_ne q p c.nodes
        have hpar1 : lookup (pathDir p) (c.nodes.filter (fun e => decide (e.1 ≠ p))) ≠ none := by
          rw [hl1, if_neg (pathDir_ne_self hp)]; exact hwf.2 p hex
        have hp1 : lookup p (c.nodes.filter (fun e => decide (e.1 ≠ p))) = none := by
          rw [hl1, if_pos rfl]
        rw [Create_ok ⟨c.nodes.filter (fun e => decide (e.1 ≠ p)), c.faults⟩ hf p v acl
          (Or.inr hpar1) hp1]
        simp only [reduceCtorEq, if_false]
        refine ⟨_, _, rfl, ?_⟩
        have hnew : ∀ q, lookup q (c.nodes.filter (fun e => decide (e.1 ≠ p))
              ++ [(p, ⟨v, acl, ⟨0, 0⟩⟩)])
            = if q = p then some ⟨v, acl, ⟨0, 0⟩⟩ else lookup q c.nodes := by
          intro q
          rw [lookup_append_one, hl1]
          by_cases hqp : q = p
          · subst hqp; simp
          · have : ¬ p = q := fun e => hqp e.symm
            simp only [this, hqp, if_false]
            split
            · rfl
            · rename_i h; exact (not_not.1 h).symm
        constructor
        · exact hf
        · exact (hwf.filter_leaf p hp hleaf).append_one p _ hpar1
        · intro _; exact ⟨by rw [hnew, if_pos rfl], rfl⟩
        · intro _ h; exact absurd h hkeep
        · intro q hqp hq; rw [hnew, if_neg hqp]
        · intro q hqp hq hpre; exact absurd hq (hwf.of_isPrefix hex hpre)
        · intro q hq
          have hqp : q ≠ p := fun e => hq (e ▸ List.prefix_refl _)
          rw [hnew, if_neg hqp]

theorem CreateRecursive_spec (c : ZkConn) (p : Path) (v : List Nat) (acl : List ACL)
    (hf : c.faults = []) (hwf : WellFormed c.nodes) :
    ∃ s c2, CreateRecursive c p v 0 acl = some ((s, none), c2) ∧ CreateSpec c p v acl s c2 :=
  CreateRecursiveAux_spec (p.length + 1) c p v acl hf hwf (Nat.lt_succ_self _)

theorem Create_noNode_ne_nil (c : ZkConn) (p : Path) (d : List Nat) (f : Int) (a : List ACL)
    (h : (c.Create p d f a).1.2 = some .ErrNoNode) : p ≠ [] := by
  unfold ZkConn.Create at h
  split at h
  · simp at h
  · split at h
    · rename_i h2; exact h2.1
    · split at h <;> simp at h

/-- Totality of `CreateRecursive`: the recursion budget never runs out, whatever
the store, the injected failures and the flags. -/
theorem CreateRecursiveAux_isSome (fuel : Nat) :
    ∀ (c : ZkConn) (p : Path) (d : List Nat) (f : Int) (a : List ACL),
      p.length < fuel → (CreateRecursiveAux fuel c p d f a).isSome = true := by
  induction fuel with
  | zero => intro c p d f a h; omega
  | succ fuel ih =>
    intro c p d f a hlen
    rw [CreateRecursiveAux_succ]
    cases c.Exists p with
    | error e => rfl
    | ok found =>
      simp only
      generalize (if found = true then (c.Delete p (-1)).2 else c) = c1
      by_cases hno : (c1.Create p d f a).1.2 = some .ErrNoNode
      · rw [if_pos hno]
        have hp := Create_noNode_ne_nil _ _ _ _ _ hno
        have hlt := pathDir_length_lt hp
        have := ih (c1.Create p d f a).2 (pathDir p) [] f (dirAcl a) (by omega)
        cases hr : CreateRecursiveAux fuel (c1.Create p d f a).2 (pathDir p) [] f (dirAcl a) with
        | none => rw [hr] at this; exact absurd this (by simp)
        | some res =>
          obtain ⟨⟨s3, err⟩, c3⟩ := res
          simp only
          split <;> rfl
      · rw [if_neg hno]; rfl

theorem CreateRecursive_isSome (c : ZkConn) (p : Path) (d : List Nat) (f : Int) (a : List ACL) :
    (CreateRecursive c p d f a).isSome = true :=
  CreateRecursiveAux_isSome _ c p d f a (Nat.lt_succ_self _)

theorem CreateRecursive_frame (c : ZkConn) (p : Path) (d : List Nat) (f : Int) (a : List ACL)
    (r : String × Option ZkErr) (c2 : ZkConn) (h : CreateRecursive c p d f a = some (r, c2)) :
    c2.faults = c.faults ∧ ∀ q, ¬ q <+: p → lookup q c2.nodes = lookup q c.nodes :=
  CreateRecursiveAux_frame _ c p d f a r c2 h

theorem wellFormed_rootOnly (n : ZNode) : WellFormed [([], n)] := by
  refine ⟨by simp [lookup], fun q hq => ?_⟩
  by_cases h : q = []
  · subst h; simp [lookup, pathDir]
  · have : ¬ [] = q := fun e => h e.symm
    simp [lookup, this] at hq

/-! ## The traversal -/

theorem walk_succ (fuel : Nat) (root : Path) (sconn : ZkConn) (w : World) (ex : List String) :
    walk (fuel + 1) root sconn w ex =
      match sconn.Children root with
      | .error _ => .exited 1 { w with sreads := w.sreads ++ [(Op.children, root)] }
      | .ok children =>
        walkChildren (fun p w1 => walk fuel p sconn w1 ex) root sconn ex children
          { w with sreads := w.sreads ++ [(Op.children, root)] } := rfl

theorem walkChildren_nil (recurse : Path → World → Outcome) (root : Path) (sconn : ZkConn)
    (ex : List String) (w : World) :
    walkChildren recurse root sconn ex [] w = .completed w := rfl

theorem walkChildren_cons (recurse : Path → World → Outcome) (root : Path) (sconn : ZkConn)
    (ex : List String) (x : String) (rest : List String) (w : World) :
    walkChildren recurse root sconn ex (x :: rest) w =
      if IsPathExcluded ex (pathStr (pathJoin root x)) = true then .completed w
      else match visit recurse sconn (pathJoin root x) w with
        | .completed w2 => walkChildren recurse root sconn ex rest w2
        | o => o := by
  conv_lhs => rw [walkChildren]
  unfold visit
  by_cases hex : IsPathExcluded ex (pathStr (pathJoin root x)) = true
  · simp only [hex, if_true]
  · simp only [hex, if_false]
    by_cases hg : (sconn.Get (pathJoin root x)).2.1.EphemeralOwner = 0
    · simp only [hg, if_true]
      cases hc : CreateRecursive w.tconn (pathJoin root x) (sconn.Get (pathJoin root x)).1 0
          (WorldACL PermAll) with
      | none => rfl
      | some res =>
        obtain ⟨⟨s1, err⟩, t⟩ := res
        cases err with
        | none => rfl
        | some e => rfl
    · simp only [hg, if_false]

theorem confined_refl (T R : Path → Prop) (w : World) : Confined T R w w :=
  ⟨rfl, fun _ _ => rfl, [], by simp, by simp⟩

theorem confined_trans {T R : Path → Prop} {w1 w2 w3 : World} (h12 : Confined T R w1 w2)
    (h23 : Confined T R w2 w3) : Confined T R w1 w3 := by
  obtain ⟨hf1, hl1, n1, hr1, hn1⟩ := h12
  obtain ⟨hf2, hl2, n2, hr2, hn2⟩ := h23
  refine ⟨hf2.trans hf1, fun q hq => (hl2 q hq).trans (hl1 q hq), n1 ++ n2, ?_, ?_⟩
  · rw [hr2, hr1, List.append_assoc]
  · intro e he
    rcases List.mem_append.1 he with h | h
    · exact hn1 e h
    · exact hn2 e h

theorem confined_mono {T R T2 R2 : Path → Prop} {w1 w2 : World} (h : Confined T R w1 w2)
    (hT : ∀ q, T q → T2 q) (hR : ∀ q, R q → R2 q) : Confined T2 R2 w1 w2 := by
  obtain ⟨hf1, hl1, n1, hr1, hn1⟩ := h
  exact ⟨hf1, fun q hq => hl1 q (fun h => hq (hT q h)), n1, hr1, fun e he => hR _ (hn1 e he)⟩

theorem visit_confined (recurse : Path → World → Outcome) (sconn : ZkConn) (fullpath : Path)
    (hrec : ∀ w w2, (recurse fullpath w).world? = some w2 →
      Confined (fun q => q <+: fullpath ∨ fullpath <+: q) (fun p => fullpath <+: p) w w2)
    (w w2 : World) (h : (visit recurse sconn fullpath w).world? = some w2) :
    Confined (fun q => q <+: fullpath ∨ fullpath <+: q) (fun p => fullpath <+: p) w w2 := by
  unfold visit at h
  have h1 : Confined (fun q => q <+: fullpath ∨ fullpath <+: q) (fun p => fullpath <+: p) w
      { w with sreads := w.sreads ++ [(Op.get, fullpath)] } :=
    ⟨rfl, fun _ _ => rfl, [(Op.get, fullpath)], rfl, by simp⟩
  simp only at h
  split at h
  · cases hc : CreateRecursive w.tconn fullpath (sconn.Get fullpath).1 0 (WorldACL PermAll) with
    | none => rw [hc] at h; simp [Outcome.world?] at h
    | some res =>
      obtain ⟨⟨s1, err⟩, t⟩ := res
      obtain ⟨hf, hl⟩ := CreateRecursive_frame _ _ _ _ _ _ _ hc
      have h2 : Confined (fun q => q <+: fullpath ∨ fullpath <+: q) (fun p => fullpath <+: p) w
          ⟨t, w.sreads ++ [(Op.get, fullpath)]⟩ :=
        ⟨hf, fun q hq => hl q (fun h => hq (Or.inl h)), [(Op.get, fullpath)], rfl, by simp⟩
      rw [hc] at h
      cases err with
      | none => exact confined_trans h2 (hrec _ _ h)
      | some e =>
        simp only [Outcome.world?, Option.some.injEq] at h
        subst h; exact h2
  · exact confined_trans h1 (hrec _ _ h)

theorem isPrefix_pathJoin {q root : Path} {x : String} (h : q <+: pathJoin root x) :
    q = pathJoin root x ∨ q <+: root := by
  by_cases hq : q = pathJoin root x
  · exact Or.inl hq
  · right
    have := isPrefix_pathDir_of_ne h hq
    simpa [pathDir, pathJoin] using this

theorem isPrefix_pathJoin_self (root : Path) (x : String) : root <+: pathJoin root x :=
  List.prefix_append _ _

theorem walkChildren_confined (recurse : Path → World → Outcome) (root : Path) (sconn : ZkConn)
    (ex : List String) (names : List String)
    (hrec : ∀ x ∈ names, ∀ w w2, (recurse (pathJoin root x) w).world? = some w2 →
      Confined (fun q => q <+: pathJoin root x ∨ pathJoin root x <+: q)
        (fun p => pathJoin root x <+: p) w w2) :
    ∀ (w w2 : World), (walkChildren recurse root sconn ex names w).world? = some w2 →
      Confined (fun q => q <+: root ∨ ∃ x ∈ names, pathJoin root x <+: q)
        (fun p => ∃ x ∈ names, pathJoin root x <+: p) w w2 := by
  induction names with
  | nil =>
    intro w w2 h
    simp only [walkChildren_nil, Outcome.world?, Option.some.injEq] at h
    subst h; exact confined_refl _ _ _
  | cons x rest ih =>
    intro w w2 h
    rw [walkChildren_cons] at h
    split at h
    · simp only [Outcome.world?, Option.some.injEq] at h
      subst h; exact confined_refl _ _ _
    · have hv : ∀ w3, (visit recurse sconn (pathJoin root x) w).world? = some w3 →
          Confined (fun q => q <+: root ∨ ∃ y ∈ x :: rest, pathJoin root y <+: q)
            (fun p => ∃ y ∈ x :: rest, pathJoin root y <+: p) w w3 := by
        intro w3 h3
        refine confined_mono
          (visit_confined recurse sconn _ (hrec x (List.mem_cons_self _ _)) w w3 h3) ?_ ?_
        · rintro q (hq | hq)
          · rcases isPrefix_pathJoin hq with h | h
            · exact Or.inr ⟨x, List.mem_cons_self _ _, h ▸ List.prefix_refl _⟩
            · exact Or.inl h
          · exact Or.inr ⟨x, List.mem_cons_self _ _, hq⟩
        · intro q hq; exact ⟨x, List.mem_cons_self _ _, hq⟩
      cases hvis : visit recurse sconn (pathJoin root x) w with
      | completed w3 =>
        rw [hvis] at h
        simp only at h
        have h3 := hv w3 (by rw [hvis]; rfl)
        have h4 := ih (fun y hy => hrec y (List.mem_cons_of_mem _ hy)) w3 w2 h
        refine confined_trans h3 (confined_mono h4 ?_ ?_)
        · rintro q (hq | ⟨y, hy, hq⟩)
          · exact Or.inl hq
          · exact Or.inr ⟨y, List.mem_cons_of_mem _ hy, hq⟩
        · rintro q ⟨y, hy, hq⟩; exact ⟨y, List.mem_cons_of_mem _ hy, hq⟩
      | exited code w3 =>
        rw [hvis] at h
        simp only [Outcome.world?, Option.some.injEq] at h
        subst h
        exact hv _ (by rw [hvis]; rfl)
      | outOfFuel =>
        rw [hvis] at h
        simp [Outcome.world?] at h

theorem walk_confined (fuel : Nat) :
    ∀ (root : Path) (sconn : ZkConn) (ex : List String) (w w2 : World),
      (walk fuel root sconn w ex).world? = some w2 →
      Confined (fun q => q <+: root ∨ root <+: q) (fun p => root <+: p) w w2 := by
  induction fuel with
  | zero => intro root sconn ex w w2 h; simp [walk, Outcome.world?] at h
  | succ fuel ih =>
    intro root sconn ex w w2 h
    rw [walk_succ] at h
    have h0 : Confined (fun q => q <+: root ∨ root <+: q) (fun p => root <+: p) w
        { w with sreads := w.sreads ++ [(Op.children, root)] } :=
      ⟨rfl, fun _ _ => rfl, [(Op.children, root)], rfl, by simp⟩
    cases hch : sconn.Children root with
    | error e =>
      rw [hch] at h
      simp only [Outcome.world?, Option.some.injEq] at h
      subst h; exact h0
    | ok names =>
      rw [hch] at h
      simp only at h
      have := walkChildren_confined (fun p w1 => walk fuel p sconn w1 ex) root sconn ex names
        (fun x _ w3 w4 h34 => ih (pathJoin root x) sconn ex w3 w4 h34) _ w2 h
      refine confined_trans h0 (confined_mono this ?_ ?_)
      · rintro q (hq | ⟨y, _, hq⟩)
        · exact Or.inl hq
        · exact Or.inr ((isPrefix_pathJoin_self root y).trans hq)
      · rintro q ⟨y, _, hq⟩; exact (isPrefix_pathJoin_self root y).trans hq

theorem walkChildren_stop (recurse : Path → World → Outcome) (root : Path) (sconn : ZkConn)
    (ex : List String) (c : String) (post : List String)
    (hc : IsPathExcluded ex (pathStr (pathJoin root c)) = true) :
    ∀ (pre : List String) (w : World),
      walkChildren recurse root sconn ex (pre ++ c :: post) w
        = walkChildren recurse root sconn ex pre w := by
  intro pre
  induction pre with
  | nil => intro w; simp [walkChildren_cons, walkChildren_nil, hc]
  | cons x pre ih =>
    intro w
    rw [List.cons_append, walkChildren_cons, walkChildren_cons]
    split
    · rfl
    · cases visit recurse sconn (pathJoin root x) w with
      | completed w3 => exact ih w3
      | exited code w3 => rfl
      | outOfFuel => rfl


/-! ## The claims -/

/-- C3: `IsPathExcluded(E, p)` is true exactly when `p` is, as a whole string,
an element of `E`.  In particular it is false for the empty list and whenever
`p` differs from every element, also when `p` is a proper part of an element or
an element is a proper part of `p`. -/
theorem IsPathExcluded_exact_match :
    (∀ (E : List String) (p : String), IsPathExcluded E p = true ↔ p ∈ E) ∧
    (∀ p : String, IsPathExcluded [] p = false) ∧
    (∀ (E : List String) (p : String), (∀ e ∈ E, e ≠ p) → IsPathExcluded E p = false) ∧
    IsPathExcluded ["/r3/failover/history"] "/r3/failover" = false ∧
    IsPathExcluded ["/r3/failover/history"] "failover" = false ∧
    IsPathExcluded ["/r3/failover"] "/r3/failover/history" = false := by
  refine ⟨IsPathExcluded_eq_true_iff, fun p => rfl, fun E p h => ?_, by decide, by decide,
    by decide⟩
  cases hx : IsPathExcluded E p with
  | false => rfl
  | true => exact absurd rfl (h p ((IsPathExcluded_eq_true_iff E p).1 hx))

/-- C4: on a well-formed target without `p`, `CreateRecursive(target, p,
payload, 0, acl)` returns `p` and leaves `p` with exactly the supplied payload
and access-control list, every missing proper ancestor of `p` with an empty
payload and the identities of `acl` under the directory permission mask
(administer, create, delete, read, write), and every other node as it was.
For `/a/b/c` on a target without `/a` these ancestors are `/a` and `/a/b`. -/
theorem CreateRecursive_materializes_ancestors (nodes : List (Path × ZNode)) (p : Path)
    (payload : List Nat) (acl : List ACL) (hwf : WellFormed nodes)
    (hp : lookup p nodes = none) :
    ∃ c2, CreateRecursive ⟨nodes, []⟩ p payload 0 acl = some ((pathStr p, none), c2) ∧
      lookup p c2.nodes = some ⟨payload, acl, ⟨0, 0⟩⟩ ∧
      (∀ q, q <+: p → q ≠ p → lookup q nodes = none →
        lookup q c2.nodes = some ⟨[], acl.map (fun a : ACL =>
          ACL.mk (PermAdmin ||| PermCreate ||| PermDelete ||| PermRead ||| PermWrite) a.Scheme
            a.ID),
          ⟨0, 0⟩⟩) ∧
      (∀ q, lookup q nodes ≠ none → lookup q c2.nodes = lookup q nodes) ∧
      (∀ q, ¬ q <+: p → lookup q c2.nodes = lookup q nodes) := by
  obtain ⟨s, c2, hrun, hs⟩ := CreateRecursive_spec ⟨nodes, []⟩ p payload acl rfl hwf
  obtain ⟨h1, h2⟩ := hs.fresh (Or.inl hp)
  subst h2
  refine ⟨c2, hrun, h1, fun q hq hne hno => hs.made q hne hno hq, fun q hq => ?_, hs.outside⟩
  have hne : q ≠ p := by
    intro e; subst e; exact hq hp
  exact hs.others q hne hq

/-- Witness for C4: `/a/b/c` on a target that holds only the root. -/
theorem CreateRecursive_materializes_ancestors_witness :
    ∃ c2, CreateRecursive ⟨[([], ⟨[], WorldACL PermAll, ⟨0, 0⟩⟩)], []⟩ ["a", "b", "c"] [1, 2] 0
        [⟨PERM_FILE, "digest", "u"⟩] = some ((pathStr ["a", "b", "c"], none), c2) ∧
      lookup ["a", "b", "c"] c2.nodes = some ⟨[1, 2], [⟨PERM_FILE, "digest", "u"⟩], ⟨0, 0⟩⟩ ∧
      (∀ q, q <+: ["a", "b", "c"] → q ≠ ["a", "b", "c"] →
        lookup q [([], ⟨[], WorldACL PermAll, ⟨0, 0⟩⟩)] = none →
        lookup q c2.nodes = some ⟨[], [⟨PERM_FILE, "digest", "u"⟩].map (fun a : ACL =>
          ACL.mk (PermAdmin ||| PermCreate ||| PermDelete ||| PermRead ||| PermWrite) a.Scheme
            a.ID),
          ⟨0, 0⟩⟩) ∧
      (∀ q, lookup q [([], ⟨[], WorldACL PermAll, ⟨0, 0⟩⟩)] ≠ none →
        lookup q c2.nodes = lookup q [([], ⟨[], WorldACL PermAll, ⟨0, 0⟩⟩)]) ∧
      (∀ q, ¬ q <+: ["a", "b", "c"] →
        lookup q c2.nodes = lookup q [([], ⟨[], WorldACL PermAll, ⟨0, 0⟩⟩)]) :=
  CreateRecursive_materializes_ancestors [([], ⟨[], WorldACL PermAll, ⟨0, 0⟩⟩)] ["a", "b", "c"]
    [1, 2] [⟨PERM_FILE, "digest", "u"⟩] (wellFormed_rootOnly _) (by decide)


/-- C5: against a target that holds only the root, calling
`CreateRecursive(target, p, payload, 0, acl)` a second time with the same
arguments succeeds again and leaves every path with the same node (or the same
absence) as after the first call. -/
theorem CreateRecursive_twice_same_state (rootNode : ZNode) (p : Path) (payload : List Nat)
    (acl : List ACL) :
    ∃ s1 c1 s2 c2,
      CreateRecursive ⟨[([], rootNode)], []⟩ p payload 0 acl = some ((s1, none), c1) ∧
      CreateRecursive c1 p payload 0 acl = some ((s2, none), c2) ∧
      s2 = s1 ∧ ∀ q, lookup q c2.nodes = lookup q c1.nodes := by
  obtain ⟨s1, c1, hrun1, hs1⟩ :=
    CreateRecursive_spec ⟨[([], rootNode)], []⟩ p payload acl rfl (wellFormed_rootOnly _)
  obtain ⟨s2, c2, hrun2, hs2⟩ := CreateRecursive_spec c1 p payload acl hs1.faults hs1.wf
  refine ⟨s1, c1, s2, c2, hrun1, hrun2, ?_⟩
  have hroot : lookup [] [(([] : Path), rootNode)] ≠ none := by simp [lookup]
  have hother : ∀ q : Path, q ≠ [] → lookup q [(([] : Path), rootNode)] = none := by
    intro q hq
    have : ¬ [] = q := fun e => hq e.symm
    simp [lookup, this]
  by_cases hp : p = []
  · -- the root: both calls leave the store alone
    subst hp
    have h1 := hs1.kept hroot (Or.inl rfl)
    have hroot1 : lookup [] c1.nodes ≠ none := hs1.wf.1
    have h2 := hs2.kept hroot1 (Or.inl rfl)
    refine ⟨h2.2.trans h1.2.symm, fun q => ?_⟩
    by_cases hq : q = []
    · subst hq; exact h2.1
    · exact hs2.outside q (fun h => hq (List.prefix_nil.1 h))
  · -- below the root: the node is a leaf after the first call
    have h1 := hs1.fresh (Or.inl (hother p hp))
    have hleaf : hasChildren p c1.nodes = false := by
      rw [hasChildren_eq_false]
      intro q hq hq0 hd
      have hnp : ¬ q <+: p := by
        intro h
        have h3 := h.length_le
        have h4 := pathDir_length_lt hq0
        rw [hd] at h4
        omega
      rw [hs1.outside q hnp, hother q hq0] at hq
      exact hq rfl
    have h2 := hs2.fresh (Or.inr ⟨hp, hleaf⟩)
    refine ⟨h2.2.trans h1.2.symm, fun q => ?_⟩
    by_cases hq : q = p
    · subst hq; rw [h2.1, h1.1]
    · by_cases hq1 : lookup q c1.nodes = none
      · by_cases hpre : q <+: p
        · exfalso
          by_cases hq0 : lookup q [(([] : Path), rootNode)] = none
          · rw [hs1.made q hq hq0 hpre] at hq1; simp at hq1
          · rw [hs1.others q hq hq0] at hq1; exact hq0 hq1
        · exact hs2.outside q hpre
      · exact hs2.others q hq hq1

/-- C6 refuted as stated: `/a` exists with payload `[9]` and has the child
`/a/b`.  The delete fails, the create fails, and `CreateRecursive` returns
without an error while `/a` still holds `[9]` instead of the supplied `[7]`. -/
theorem CreateRecursive_keeps_node_with_children :
    lookup ["a"] [([], ⟨[], WorldACL PermAll, ⟨0, 0⟩⟩), (["a"], ⟨[9], WorldACL PermRead, ⟨4, 0⟩⟩),
        (["a", "b"], ⟨[], WorldACL PermAll, ⟨0, 0⟩⟩)] ≠ none ∧
    ¬ ∃ r c2, CreateRecursive
        ⟨[([], ⟨[], WorldACL PermAll, ⟨0, 0⟩⟩), (["a"], ⟨[9], WorldACL PermRead, ⟨4, 0⟩⟩),
          (["a", "b"], ⟨[], WorldACL PermAll, ⟨0, 0⟩⟩)], []⟩ ["a"] [7] 0 (WorldACL PermAll)
          = some (r, c2) ∧
        ∃ st, lookup ["a"] c2.nodes = some ⟨[7], WorldACL PermAll, st⟩ := by
  refine ⟨by decide, ?_⟩
  rintro ⟨r, c2, hrun, st, hl⟩
  have hval : CreateRecursive
      ⟨[([], ⟨[], WorldACL PermAll, ⟨0, 0⟩⟩), (["a"], ⟨[9], WorldACL PermRead, ⟨4, 0⟩⟩),
        (["a", "b"], ⟨[], WorldACL PermAll, ⟨0, 0⟩⟩)], []⟩ ["a"] [7] 0 (WorldACL PermAll)
      = some (("", none),
        ⟨[([], ⟨[], WorldACL PermAll, ⟨0, 0⟩⟩), (["a"], ⟨[9], WorldACL PermRead, ⟨4, 0⟩⟩),
          (["a", "b"], ⟨[], WorldACL PermAll, ⟨0, 0⟩⟩)], []⟩) := by decide
  rw [hval] at hrun
  obtain ⟨-, rfl⟩ := Prod.mk.inj (Option.some.inj hrun)
  have h9 : (lookup ["a"]
      [([], ⟨[], WorldACL PermAll, ⟨0, 0⟩⟩), (["a"], ⟨[9], WorldACL PermRead, ⟨4, 0⟩⟩),
        (["a", "b"], ⟨[], WorldACL PermAll, ⟨0, 0⟩⟩)]).map ZNode.data = some [9] := by decide
  rw [hl] at h9
  simp at h9

/-- C6, amended: when the node at `p` exists in a well-formed target, is not
the root and has no children, `CreateRecursive(target, p, payload, 0, acl)`
deletes and recreates it: on return `p` holds exactly the supplied payload and
access-control list (with a fresh stat), whatever it held before, and no other
node has changed. -/
theorem CreateRecursive_overwrites_leaf (nodes : List (Path × ZNode)) (p : Path)
    (payload : List Nat) (acl : List ACL) (hwf : WellFormed nodes) (hroot : p ≠ [])
    (hex : lookup p nodes ≠ none) (hleaf : hasChildren p nodes = false) :
    ∃ c2, CreateRecursive ⟨nodes, []⟩ p payload 0 acl = some ((pathStr p, none), c2) ∧
      lookup p c2.nodes = some ⟨payload, acl, ⟨0, 0⟩⟩ ∧
      ∀ q, q ≠ p → lookup q c2.nodes = lookup q nodes := by
  obtain ⟨s, c2, hrun, hs⟩ := CreateRecursive_spec ⟨nodes, []⟩ p payload acl rfl hwf
  obtain ⟨h1, h2⟩ := hs.fresh (Or.inr ⟨hroot, hleaf⟩)
  subst h2
  refine ⟨c2, hrun, h1, fun q hq => ?_⟩
  by_cases hq1 : lookup q nodes = none
  · by_cases hpre : q <+: p
    · exact absurd hq1 (hwf.of_isPrefix hex hpre)
    · exact hs.outside q hpre
  · exact hs.others q hq hq1

/-- Witness for C6: `/a` holds `[9]` at version 4 and has no children. -/
theorem CreateRecursive_overwrites_leaf_witness :
    ∃ c2, CreateRecursive
        ⟨[([], ⟨[], WorldACL PermAll, ⟨0, 0⟩⟩), (["a"], ⟨[9], WorldACL PermRead, ⟨4, 0⟩⟩)], []⟩
        ["a"] [7] 0 (WorldACL PermAll) = some ((pathStr ["a"], none), c2) ∧
      lookup ["a"] c2.nodes = some ⟨[7], WorldACL PermAll, ⟨0, 0⟩⟩ ∧
      ∀ q, q ≠ ["a"] → lookup q c2.nodes
        = lookup q [([], ⟨[], WorldACL PermAll, ⟨0, 0⟩⟩),
            (["a"], ⟨[9], WorldACL PermRead, ⟨4, 0⟩⟩)] :=
  CreateRecursive_overwrites_leaf
    [([], ⟨[], WorldACL PermAll, ⟨0, 0⟩⟩), (["a"], ⟨[9], WorldACL PermRead, ⟨4, 0⟩⟩)] ["a"] [7]
    (WorldACL PermAll)
    ⟨by decide, fun q hq => by
      by_cases h1 : q = []
      · subst h1; decide
      · by_cases h2 : q = ["a"]
        · subst h2; decide
        · have h3 : ¬ [] = q := fun e => h1 e.symm
          have h4 : ¬ ["a"] = q := fun e => h2 e.symm
          simp [lookup, h3, h4] at hq⟩
    (by decide) (by decide) (by decide)

/-- C8, the failing input: `/r3` exists in the target and has the child
`/r3/x`.  The create request fails with `ErrNodeExists`, yet `CreateRecursive`
returns the empty path and a nil error, and the target is unchanged. -/
theorem CreateRecursive_returns_nil_on_failed_create :
    (ZkConn.Create
        ⟨[([], ⟨[], WorldACL PermAll, ⟨0, 0⟩⟩), (["r3"], ⟨[1], WorldACL PermAll, ⟨0, 0⟩⟩),
          (["r3", "x"], ⟨[], WorldACL PermAll, ⟨0, 0⟩⟩)], []⟩ ["r3"] [2] 0
        (WorldACL PermAll)).1.2 = some ZkErr.ErrNodeExists ∧
    CreateRecursive
        ⟨[([], ⟨[], WorldACL PermAll, ⟨0, 0⟩⟩), (["r3"], ⟨[1], WorldACL PermAll, ⟨0, 0⟩⟩),
          (["r3", "x"], ⟨[], WorldACL PermAll, ⟨0, 0⟩⟩)], []⟩ ["r3"] [2] 0 (WorldACL PermAll)
      = some (("", none),
        ⟨[([], ⟨[], WorldACL PermAll, ⟨0, 0⟩⟩), (["r3"], ⟨[1], WorldACL PermAll, ⟨0, 0⟩⟩),
          (["r3", "x"], ⟨[], WorldACL PermAll, ⟨0, 0⟩⟩)], []⟩) := by
  decide

/-- C9, the failing input: the source holds `/r3/x` with payload `[118, 49]`
and the `Get` request on `/r3/x` fails.  `walk` does not stop: it creates
`/r3/x` in the target with an empty payload and runs to completion. -/
theorem walk_ignores_failed_get :
    (ZkConn.Get
        ⟨[([], ⟨[], WorldACL PermAll, ⟨0, 0⟩⟩), (["r3"], ⟨[], WorldACL PermAll, ⟨0, 0⟩⟩),
          (["r3", "x"], ⟨[118, 49], WorldACL PermAll, ⟨0, 0⟩⟩)], [(Op.get, ["r3", "x"])]⟩
        ["r3", "x"]).2.2 = some ZkErr.ErrConnectionClosed ∧
    walk 3 ["r3"]
        ⟨[([], ⟨[], WorldACL PermAll, ⟨0, 0⟩⟩), (["r3"], ⟨[], WorldACL PermAll, ⟨0, 0⟩⟩),
          (["r3", "x"], ⟨[118, 49], WorldACL PermAll, ⟨0, 0⟩⟩)], [(Op.get, ["r3", "x"])]⟩
        ⟨⟨[([], ⟨[], WorldACL PermAll, ⟨0, 0⟩⟩)], []⟩, []⟩ []
      = .completed
        ⟨⟨[([], ⟨[], WorldACL PermAll, ⟨0, 0⟩⟩), (["r3"], ⟨[], WorldACL PermAll, ⟨0, 0⟩⟩),
            (["r3", "x"], ⟨[], WorldACL PermAll, ⟨0, 0⟩⟩)], []⟩,
          [(Op.children, ["r3"]), (Op.get, ["r3", "x"]), (Op.children, ["r3", "x"])]⟩ := by
  decide

theorem pathJoin_not_isPrefix_root (root : Path) (s : String) : ¬ pathJoin root s <+: root := by
  intro h
  have := h.length_le
  simp [pathJoin] at this

theorem pathJoin_isPrefix_unique {root q : Path} {x s : String} (hx : pathJoin root x <+: q)
    (hs : pathJoin root s <+: q) : x = s := by
  have h1 : pathJoin root x <+: pathJoin root s :=
    List.prefix_of_prefix_length_le hx hs (by simp [pathJoin])
  have h2 : pathJoin root x = pathJoin root s :=
    List.IsPrefix.eq_of_length h1 (by simp [pathJoin])
  simpa [pathJoin] using h2

/-- C2: when the children of `root`, in the order the source returns them, are
`pre ++ c :: post` and the full path of `c` is in the exclusion set, `walk`
returns from this level at `c`: the call is exactly the loop run over the
earlier siblings `pre`.  Below the excluded child and below every later
sibling nothing is requested from the source and no target node changes. -/
theorem walk_returns_at_excluded_child (fuel : Nat) (root : Path) (sconn : ZkConn)
    (ex : List String) (w : World) (pre : List String) (c : String) (post : List String)
    (hch : sconn.Children root = .ok (pre ++ c :: post))
    (hnodup : (pre ++ c :: post).Nodup)
    (hc : IsPathExcluded ex (pathStr (pathJoin root c)) = true) :
    walk (fuel + 1) root sconn w ex
        = walkChildren (fun p w1 => walk fuel p sconn w1 ex) root sconn ex pre
            { w with sreads := w.sreads ++ [(Op.children, root)] } ∧
    ∀ w2, (walk (fuel + 1) root sconn w ex).world? = some w2 →
      (∃ new, w2.sreads = w.sreads ++ new ∧
        ∀ e ∈ new, ∀ s ∈ c :: post, ¬ pathJoin root s <+: e.2) ∧
      ∀ s ∈ c :: post, ∀ q, pathJoin root s <+: q →
        lookup q w2.tconn.nodes = lookup q w.tconn.nodes := by
  have heq : walk (fuel + 1) root sconn w ex
      = walkChildren (fun p w1 => walk fuel p sconn w1 ex) root sconn ex pre
          { w with sreads := w.sreads ++ [(Op.children, root)] } := by
    rw [walk_succ, hch]
    exact walkChildren_stop _ root sconn ex c post hc pre _
  refine ⟨heq, fun w2 h2 => ?_⟩
  rw [heq] at h2
  obtain ⟨-, hl, new, hr, hn⟩ := walkChildren_confined (fun p w1 => walk fuel p sconn w1 ex) root
    sconn ex pre (fun x _ w3 w4 h34 => walk_confined fuel (pathJoin root x) sconn ex w3 w4 h34)
    _ w2 h2
  have hdisj : ∀ s ∈ c :: post, ∀ x ∈ pre, x ≠ s := by
    intro s hs x hx e
    subst e
    exact (List.nodup_append.1 hnodup).2.2 hx hs
  refine ⟨⟨(Op.children, root) :: new, ?_, ?_⟩, ?_⟩
  · rw [hr]; simp
  · intro e he s hs hpre
    rcases List.mem_cons.1 he with h | h
    · subst h; exact pathJoin_not_isPrefix_root root s hpre
    · obtain ⟨x, hx, hxe⟩ := hn e h
      exact hdisj s hs x hx (pathJoin_isPrefix_unique hxe hpre)
  · intro s hs q hq
    refine hl q ?_
    rintro (h | ⟨x, hx, hxq⟩)
    · exact pathJoin_not_isPrefix_root root s (hq.trans h)
    · exact hdisj s hs x hx (pathJoin_isPrefix_unique hxq hq)

/-- Witness for C2: the children of `/r3` are `x`, `a`, `b` and `/r3/a` is
excluded. -/
theorem walk_returns_at_excluded_child_witness :
    walk 3 ["r3"]
        ⟨[([], ⟨[], WorldACL PermAll, ⟨0, 0⟩⟩), (["r3"], ⟨[], WorldACL PermAll, ⟨0, 0⟩⟩),
          (["r3", "x"], ⟨[1], WorldACL PermAll, ⟨0, 0⟩⟩),
          (["r3", "a"], ⟨[2], WorldACL PermAll, ⟨0, 0⟩⟩),
          (["r3", "a", "k"], ⟨[3], WorldACL PermAll, ⟨0, 0⟩⟩),
          (["r3", "b"], ⟨[4], WorldACL PermAll, ⟨0, 0⟩⟩)], []⟩
        ⟨⟨[([], ⟨[], WorldACL PermAll, ⟨0, 0⟩⟩)], []⟩, []⟩ ["/r3/a"]
      = .completed
        ⟨⟨[([], ⟨[], WorldACL PermAll, ⟨0, 0⟩⟩), (["r3"], ⟨[], WorldACL PermAll, ⟨0, 0⟩⟩),
            (["r3", "x"], ⟨[1], WorldACL PermAll, ⟨0, 0⟩⟩)], []⟩,
          [(Op.children, ["r3"]), (Op.get, ["r3", "x"]), (Op.children, ["r3", "x"])]⟩ :=
  (walk_returns_at_excluded_child 2 ["r3"]
    ⟨[([], ⟨[], WorldACL PermAll, ⟨0, 0⟩⟩), (["r3"], ⟨[], WorldACL PermAll, ⟨0, 0⟩⟩),
      (["r3", "x"], ⟨[1], WorldACL PermAll, ⟨0, 0⟩⟩),
      (["r3", "a"], ⟨[2], WorldACL PermAll, ⟨0, 0⟩⟩),
      (["r3", "a", "k"], ⟨[3], WorldACL PermAll, ⟨0, 0⟩⟩),
      (["r3", "b"], ⟨[4], WorldACL PermAll, ⟨0, 0⟩⟩)], []⟩
    ["/r3/a"] ⟨⟨[([], ⟨[], WorldACL PermAll, ⟨0, 0⟩⟩)], []⟩, []⟩ ["x"] "a" ["b"]
    (by rfl) (by decide) (by decide)).1.trans (by decide)

/-! ## Runs on a source tree without failures -/

theorem lookup_ne_none_of_mem {q : Path} {n : ZNode} {nodes : List (Path × ZNode)}
    (h : (q, n) ∈ nodes) : lookup q nodes ≠ none := by
  induction nodes with
  | nil => simp at h
  | cons e nodes ih =>
    obtain ⟨r, m⟩ := e
    by_cases hr : r = q
    · simp [lookup, hr]
    · simp only [lookup, hr, if_false]
      rcases List.mem_cons.1 h with h1 | h1
      · exact absurd (Prod.mk.inj h1).1.symm hr
      · exact ih h1

theorem mem_of_lookup_eq_some {q : Path} {n : ZNode} {nodes : List (Path × ZNode)}
    (h : lookup q nodes = some n) : (q, n) ∈ nodes := by
  induction nodes with
  | nil => simp [lookup] at h
  | cons e nodes ih =>
    obtain ⟨r, m⟩ := e
    by_cases hr : r = q
    · simp only [lookup, hr, if_true, Option.some.injEq] at h
      subst h; subst hr; exact List.mem_cons_self _ _
    · simp only [lookup, hr, if_false] at h
      exact List.mem_cons_of_mem _ (ih h)

theorem length_le_maxDepth {q : Path} {nodes : List (Path × ZNode)}
    (h : lookup q nodes ≠ none) : q.length ≤ maxDepth nodes := by
  induction nodes with
  | nil => simp [lookup] at h
  | cons e nodes ih =>
    obtain ⟨r, m⟩ := e
    by_cases hr : r = q
    · subst hr; simp [maxDepth]
    · simp only [lookup, hr, if_false] at h
      have := ih h
      simp only [maxDepth]
      omega

theorem Children_ok (src : List (Path × ZNode)) (root : Path) (h : lookup root src ≠ none) :
    ZkConn.Children ⟨src, []⟩ root
      = .ok (src.filterMap (fun e => childName root e.1)) := by
  simp [ZkConn.Children, h]

theorem mem_children_iff (src : List (Path × ZNode)) (root : Path) (x : String) :
    x ∈ src.filterMap (fun e => childName root e.1) ↔ lookup (pathJoin root x) src ≠ none := by
  rw [List.mem_filterMap]
  constructor
  · rintro ⟨⟨q, n⟩, hmem, hc⟩
    have := (childName_eq_some root q x).1 hc
    subst this
    exact lookup_ne_none_of_mem hmem
  · intro h
    cases hl : lookup (pathJoin root x) src with
    | none => exact absurd hl h
    | some n =>
      exact ⟨(pathJoin root x, n), mem_of_lookup_eq_some hl,
        (childName_eq_some root _ x).2 rfl⟩

theorem Get_ok (src : List (Path × ZNode)) (p : Path) (n : ZNode) (h : lookup p src = some n) :
    ZkConn.Get ⟨src, []⟩ p = (n.data, n.stat, none) := by
  simp [ZkConn.Get, h]

theorem CreateRecursiveAux_no_error (fuel : Nat) :
    ∀ (c : ZkConn) (p : Path) (d : List Nat) (f : Int) (a : List ACL) (s : String)
      (err : Option ZkErr) (c2 : ZkConn), c.faults = [] →
      CreateRecursiveAux fuel c p d f a = some ((s, err), c2) → err = none := by
  induction fuel with
  | zero => intro c p d f a s err c2 _ h; simp [CreateRecursiveAux] at h
  | succ fuel ih =>
    intro c p d f a s err c2 hf h
    rw [CreateRecursiveAux_succ, Exists_ok c hf] at h
    simp only at h
    have h1f : (if (lookup p c.nodes).isSome = true then (c.Delete p (-1)).2 else c).faults
        = [] := by
      split
      · rw [Delete_faults]; exact hf
      · exact hf
    generalize (if (lookup p c.nodes).isSome = true then (c.Delete p (-1)).2 else c) = c1
      at h h1f
    split at h
    · cases hrec : CreateRecursiveAux fuel (c1.Create p d f a).2 (pathDir p) [] f (dirAcl a) with
      | none => rw [hrec] at h; simp at h
      | some res =>
        obtain ⟨⟨s3, err3⟩, c3⟩ := res
        rw [hrec] at h
        have h3 := ih _ _ _ _ _ _ _ _ (by rw [Create_faults]; exact h1f) hrec
        subst h3
        simp only [ne_eq, not_true_eq_false, false_and, if_false] at h
        exact ((Prod.mk.inj (Prod.mk.inj (Option.some.inj h)).1).2).symm
    · exact ((Prod.mk.inj (Prod.mk.inj (Option.some.inj h)).1).2).symm

/-- On a target without injected failures `CreateRecursive` always returns,
and always with a nil error. -/
theorem CreateRecursive_ok (c : ZkConn) (p : Path) (d : List Nat) (f : Int) (a : List ACL)
    (hf : c.faults = []) :
    ∃ s c2, CreateRecursive c p d f a = some ((s, none), c2) ∧ c2.faults = [] ∧
      ∀ q, ¬ q <+: p → lookup q c2.nodes = lookup q c.nodes := by
  have h := CreateRecursive_isSome c p d f a
  cases hr : CreateRecursive c p d f a with
  | none => rw [hr] at h; simp at h
  | some res =>
    obtain ⟨⟨s, err⟩, c2⟩ := res
    have he := CreateRecursiveAux_no_error _ c p d f a s err c2 hf hr
    subst he
    obtain ⟨hf2, hl⟩ := CreateRecursive_frame c p d f a _ c2 hr
    exact ⟨s, c2, rfl, hf2.trans hf, hl⟩

theorem visit_onPersistentWay (recurse : Path → World → Outcome) (src : List (Path × ZNode))
    (fullpath : Path) (hin : lookup fullpath src ≠ none)
    (hrec : ∀ w, w.tconn.faults = [] → OnPersistentWay src w.tconn.nodes →
      ∃ w2, recurse fullpath w = .completed w2 ∧ w2.tconn.faults = [] ∧
        OnPersistentWay src w2.tconn.nodes)
    (w : World) (hf : w.tconn.faults = []) (hk : OnPersistentWay src w.tconn.nodes) :
    ∃ w2, visit recurse ⟨src, []⟩ fullpath w = .completed w2 ∧ w2.tconn.faults = [] ∧
      OnPersistentWay src w2.tconn.nodes := by
  cases hl : lookup fullpath src with
  | none => exact absurd hl hin
  | some n =>
    unfold visit
    rw [Get_ok src fullpath n hl]
    simp only
    split
    · rename_i hper
      obtain ⟨s, c2, hrun, hf2, hout⟩ :=
        CreateRecursive_ok w.tconn fullpath n.data 0 (WorldACL PermAll) hf
      rw [hrun]
      simp only
      refine hrec ⟨c2, w.sreads ++ [(Op.get, fullpath)]⟩ hf2 ?_
      intro q hq
      by_cases hpre : q <+: fullpath
      · exact Or.inr ⟨fullpath, n, hl, hper, hpre⟩
      · exact hk q (by rw [← hout q hpre]; exact hq)
    · exact hrec ⟨w.tconn, w.sreads ++ [(Op.get, fullpath)]⟩ hf hk

theorem walkChildren_onPersistentWay (recurse : Path → World → Outcome)
    (src : List (Path × ZNode)) (root : Path) (ex : List String) (names : List String)
    (hin : ∀ x ∈ names, lookup (pathJoin root x) src ≠ none)
    (hrec : ∀ x ∈ names, ∀ w, w.tconn.faults = [] → OnPersistentWay src w.tconn.nodes →
      ∃ w2, recurse (pathJoin root x) w = .completed w2 ∧ w2.tconn.faults = [] ∧
        OnPersistentWay src w2.tconn.nodes) :
    ∀ w : World, w.tconn.faults = [] → OnPersistentWay src w.tconn.nodes →
      ∃ w2, walkChildren recurse root ⟨src, []⟩ ex names w = .completed w2 ∧
        w2.tconn.faults = [] ∧ OnPersistentWay src w2.tconn.nodes := by
  induction names with
  | nil => intro w hf hk; exact ⟨w, rfl, hf, hk⟩
  | cons x rest ih =>
    intro w hf hk
    rw [walkChildren_cons]
    split
    · exact ⟨w, rfl, hf, hk⟩
    · obtain ⟨w3, hv, hf3, hk3⟩ := visit_onPersistentWay recurse src (pathJoin root x)
        (hin x (List.mem_cons_self _ _)) (hrec x (List.mem_cons_self _ _)) w hf hk
      rw [hv]
      exact ih (fun y hy => hin y (List.mem_cons_of_mem _ hy))
        (fun y hy => hrec y (List.mem_cons_of_mem _ hy)) w3 hf3 hk3

theorem walk_onPersistentWay (src : List (Path × ZNode)) (ex : List String) (fuel : Nat) :
    ∀ (root : Path) (w : World), lookup root src ≠ none → maxDepth src < fuel + root.length →
      w.tconn.faults = [] → OnPersistentWay src w.tconn.nodes →
      ∃ w2, walk fuel root ⟨src, []⟩ w ex = .completed w2 ∧ w2.tconn.faults = [] ∧
        OnPersistentWay src w2.tconn.nodes := by
  induction fuel with
  | zero =>
    intro root w hroot hlen
    have := length_le_maxDepth hroot
    omega
  | succ fuel ih =>
    intro root w hroot hlen hf hk
    rw [walk_succ, Children_ok src root hroot]
    simp only
    refine walkChildren_onPersistentWay _ src root ex _ (fun x hx => (mem_children_iff src root x).1 hx)
      (fun x hx w3 hf3 hk3 => ?_) _ hf hk
    refine ih (pathJoin root x) w3 ((mem_children_iff src root x).1 hx) ?_ hf3 hk3
    simp only [pathJoin, List.length_append, List.length_singleton]
    omega


/-- C7 refuted as stated: `/r3/y` is ephemeral in the source and has the
persistent child `/r3/y/c`.  Replicating the child materialises its missing
parent, so after the run `/r3/y` exists in the target (with an empty
payload). -/
theorem walk_materializes_ephemeral_parent :
    (lookup ["r3", "y"]
        [([], ⟨[], WorldACL PermAll, ⟨0, 0⟩⟩), (["r3"], ⟨[], WorldACL PermAll, ⟨0, 0⟩⟩),
          (["r3", "y"], ⟨[5], WorldACL PermAll, ⟨0, 7⟩⟩),
          (["r3", "y", "c"], ⟨[9], WorldACL PermAll, ⟨0, 0⟩⟩)]).map
        (fun n => n.stat.EphemeralOwner) = some 7 ∧
    ∃ w2, walk 4 ["r3"]
        ⟨[([], ⟨[], WorldACL PermAll, ⟨0, 0⟩⟩), (["r3"], ⟨[], WorldACL PermAll, ⟨0, 0⟩⟩),
          (["r3", "y"], ⟨[5], WorldACL PermAll, ⟨0, 7⟩⟩),
          (["r3", "y", "c"], ⟨[9], WorldACL PermAll, ⟨0, 0⟩⟩)], []⟩
        ⟨⟨[([], ⟨[], WorldACL PermAll, ⟨0, 0⟩⟩)], []⟩, []⟩ [] = .completed w2 ∧
      lookup ["r3", "y"] w2.tconn.nodes = some ⟨[], WorldACL PermAll, ⟨0, 0⟩⟩ := by
  refine ⟨by decide, ⟨⟨[([], ⟨[], WorldACL PermAll, ⟨0, 0⟩⟩),
      (["r3"], ⟨[], WorldACL PermAll, ⟨0, 0⟩⟩), (["r3", "y"], ⟨[], WorldACL PermAll, ⟨0, 0⟩⟩),
      (["r3", "y", "c"], ⟨[9], WorldACL PermAll, ⟨0, 0⟩⟩)], []⟩,
    [(Op.children, ["r3"]), (Op.get, ["r3", "y"]), (Op.children, ["r3", "y"]),
      (Op.get, ["r3", "y", "c"]), (Op.children, ["r3", "y", "c"])]⟩, by decide, by decide⟩

/-- C7, amended: for a source tree that holds `root`, any exclusion set and a
target that initially holds only `/`, `walk` completes (given a recursion
budget above the depth of the source), and an ephemeral node of the source,
other than `/`, that has no persistent descendant in the source does not exist
in the target afterwards, whatever ephemeral children it has. -/
theorem walk_skips_ephemeral_without_persistent_descendants (src : List (Path × ZNode))
    (rootNode : ZNode) (root : Path) (ex : List String) (fuel : Nat) (e : Path) (n : ZNode)
    (hroot : lookup root src ≠ none) (hfuel : maxDepth src < fuel)
    (he : lookup e src = some n) (heph : n.stat.EphemeralOwner ≠ 0) (hne : e ≠ [])
    (hbelow : ∀ q m, lookup q src = some m → e <+: q → q ≠ e → m.stat.EphemeralOwner ≠ 0) :
    ∃ w2, walk fuel root ⟨src, []⟩ ⟨⟨[([], rootNode)], []⟩, []⟩ ex = .completed w2 ∧
      lookup e w2.tconn.nodes = none := by
  have hk0 : OnPersistentWay src [(([] : Path), rootNode)] := by
    intro q hq
    by_cases h : q = []
    · exact Or.inl h
    · have : ¬ [] = q := fun e => h e.symm
      simp [lookup, this] at hq
  obtain ⟨w2, hrun, -, hk⟩ := walk_onPersistentWay src ex fuel root
    ⟨⟨[([], rootNode)], []⟩, []⟩ hroot (by omega) rfl hk0
  refine ⟨w2, hrun, ?_⟩
  by_contra hin
  rcases hk e hin with h | ⟨v, m, hv, hper, hpre⟩
  · exact hne h
  · by_cases hve : v = e
    · subst hve
      rw [he] at hv
      obtain rfl := Option.some.inj hv
      exact heph hper
    · exact hbelow v m hv hpre hve hper

/-- Witness for C7: `/r3/x` is persistent, `/r3/y` is ephemeral and has the
ephemeral child `/r3/y/z`. -/
theorem walk_skips_ephemeral_without_persistent_descendants_witness :
    ∃ w2, walk 4 ["r3"]
        ⟨[([], ⟨[], WorldACL PermAll, ⟨0, 0⟩⟩), (["r3"], ⟨[], WorldACL PermAll, ⟨0, 0⟩⟩),
          (["r3", "x"], ⟨[118, 49], WorldACL PermAll, ⟨0, 0⟩⟩),
          (["r3", "y"], ⟨[5], WorldACL PermAll, ⟨0, 7⟩⟩),
          (["r3", "y", "z"], ⟨[6], WorldACL PermAll, ⟨0, 7⟩⟩)], []⟩
        ⟨⟨[([], ⟨[], WorldACL PermAll, ⟨0, 0⟩⟩)], []⟩, []⟩ [] = .completed w2 ∧
      lookup ["r3", "y"] w2.tconn.nodes = none :=
  walk_skips_ephemeral_without_persistent_descendants
    [([], ⟨[], WorldACL PermAll, ⟨0, 0⟩⟩), (["r3"], ⟨[], WorldACL PermAll, ⟨0, 0⟩⟩),
      (["r3", "x"], ⟨[118, 49], WorldACL PermAll, ⟨0, 0⟩⟩),
      (["r3", "y"], ⟨[5], WorldACL PermAll, ⟨0, 7⟩⟩),
      (["r3", "y", "z"], ⟨[6], WorldACL PermAll, ⟨0, 7⟩⟩)]
    ⟨[], WorldACL PermAll, ⟨0, 0⟩⟩ ["r3"] [] 4 ["r3", "y"] ⟨[5], WorldACL PermAll, ⟨0, 7⟩⟩
    (by decide) (by decide) (by decide) (by decide) (by decide)
    (fun q m hq hpre hqe => by
      have hmem := mem_of_lookup_eq_some hq
      simp only [List.mem_cons, Prod.mk.injEq, List.mem_singleton, List.not_mem_nil,
        or_false] at hmem
      rcases hmem with h | h | h | h | h
      · obtain ⟨rfl, -⟩ := h; exact absurd hpre (by decide)
      · obtain ⟨rfl, -⟩ := h; exact absurd hpre (by decide)
      · obtain ⟨rfl, -⟩ := h; exact absurd hpre (by decide)
      · obtain ⟨rfl, -⟩ := h; exact absurd rfl hqe
      · obtain ⟨-, rfl⟩ := h; decide)

/-- The defect of C9 seen from C7: `/r3/y` is an ephemeral leaf of the source
and the `Get` request on it fails.  The zero stat reads as a persistent node,
so `/r3/y` is created in the target with an empty payload. -/
theorem walk_replicates_ephemeral_on_failed_get :
    walk 3 ["r3"]
        ⟨[([], ⟨[], WorldACL PermAll, ⟨0, 0⟩⟩), (["r3"], ⟨[], WorldACL PermAll, ⟨0, 0⟩⟩),
          (["r3", "y"], ⟨[5], WorldACL PermAll, ⟨0, 7⟩⟩)], [(Op.get, ["r3", "y"])]⟩
        ⟨⟨[([], ⟨[], WorldACL PermAll, ⟨0, 0⟩⟩)], []⟩, []⟩ []
      = .completed
        ⟨⟨[([], ⟨[], WorldACL PermAll, ⟨0, 0⟩⟩), (["r3"], ⟨[], WorldACL PermAll, ⟨0, 0⟩⟩),
            (["r3", "y"], ⟨[], WorldACL PermAll, ⟨0, 0⟩⟩)], []⟩,
          [(Op.children, ["r3"]), (Op.get, ["r3", "y"]), (Op.children, ["r3", "y"])]⟩ := by
  decide

theorem splitComma_join (cs : List Char) : joinComma (splitComma cs) = cs := by
  induction cs with
  | nil => rfl
  | cons c cs ih =>
    unfold splitComma
    split
    · rename_i hc
      cases hs : splitComma cs with
      | nil => exact absurd hs (splitComma_ne_nil cs)
      | cons piece pieces =>
        rw [hs] at ih
        simp [joinComma, ih, hc]
    · cases hs : splitComma cs with
      | nil => exact absurd hs (splitComma_ne_nil cs)
      | cons piece pieces =>
        rw [hs] at ih
        cases pieces with
        | nil => simp only [joinComma] at ih ⊢; rw [ih]
        | cons next rest => simp only [joinComma, List.cons_append] at ih ⊢; rw [ih]

theorem splitComma_no_comma (cs : List Char) : ∀ piece ∈ splitComma cs, ',' ∉ piece := by
  induction cs with
  | nil => simp [splitComma]
  | cons c cs ih =>
    unfold splitComma
    split
    · intro piece hp
      rcases List.mem_cons.1 hp with h | h
      · subst h; simp
      · exact ih piece h
    · rename_i hc
      cases hs : splitComma cs with
      | nil => exact absurd hs (splitComma_ne_nil cs)
      | cons piece pieces =>
        rw [hs] at ih
        intro q hq
        rcases List.mem_cons.1 hq with h | h
        · subst h
          intro hmem
          rcases List.mem_cons.1 hmem with h1 | h1
          · exact hc h1.symm
          · exact ih piece (List.mem_cons_self _ _) h1
        · exact ih q (List.mem_cons_of_mem _ h)

theorem wellFormed_of_check (nodes : List (Path × ZNode)) (h : wellFormedCheck nodes = true) :
    WellFormed nodes := by
  unfold wellFormedCheck at h
  rw [Bool.and_eq_true, List.all_eq_true] at h
  obtain ⟨h1, h2⟩ := h
  refine ⟨?_, fun q hq => ?_⟩
  · intro e; rw [e] at h1; simp at h1
  · cases hl : lookup q nodes with
    | none => exact absurd hl hq
    | some n =>
      have := h2 (q, n) (mem_of_lookup_eq_some hl)
      intro e
      simp only at this
      rw [e] at this
      simp at this

/-! ## Replication of the persistent nodes -/

theorem create_step (src : List (Path × ZNode)) (top cur : Path) (x : String) (n : ZNode)
    (w : World) (reads : List (Op × Path)) (htop : top <+: cur)
    (hn : lookup (pathJoin cur x) src = some n) (hper : n.stat.EphemeralOwner = 0)
    (hg : Good src top w) (hv : AncestorsPresent src top cur w) :
    ∃ s c2, CreateRecursive w.tconn (pathJoin cur x) n.data 0 (WorldACL PermAll)
        = some ((s, none), c2) ∧
      Good src top ⟨c2, reads⟩ ∧ Grows w ⟨c2, reads⟩ ∧
      lookup (pathJoin cur x) c2.nodes ≠ none := by
  obtain ⟨s, c2, hrun, hs⟩ :=
    CreateRecursive_spec w.tconn (pathJoin cur x) n.data (WorldACL PermAll) hg.faults hg.wf
  have hq_top : top <+: pathJoin cur x := htop.trans (isPrefix_pathJoin_self cur x)
  have hq_ne : pathJoin cur x ≠ top := by
    intro e
    have h1 := htop.length_le
    have h2 : (pathJoin cur x).length = cur.length + 1 := by simp [pathJoin]
    rw [e] at h2
    omega
  -- the node at the path after the call
  have hq : lookup (pathJoin cur x) c2.nodes = some ⟨n.data, WorldACL PermAll, ⟨0, 0⟩⟩ := by
    by_cases hex : lookup (pathJoin cur x) w.tconn.nodes = none
    · exact (hs.fresh (Or.inl hex)).1
    · by_cases hkeep : pathJoin cur x = [] ∨ hasChildren (pathJoin cur x) w.tconn.nodes = true
      · rw [(hs.kept hex hkeep).1]
        exact hg.content _ n hq_top hq_ne hn hper hex
      · have hp : pathJoin cur x ≠ [] := fun e => hkeep (Or.inl e)
        have hleaf : hasChildren (pathJoin cur x) w.tconn.nodes = false := by
          cases h : hasChildren (pathJoin cur x) w.tconn.nodes with
          | false => rfl
          | true => exact absurd (Or.inr h) hkeep
        exact (hs.fresh (Or.inr ⟨hp, hleaf⟩)).1
  refine ⟨s, c2, hrun, ⟨hs.faults, hs.wf, ?_⟩, ?_, by rw [hq]; simp⟩
  · intro p m hp hpne hm hmper hin
    by_cases hpq : p = pathJoin cur x
    · subst hpq
      rw [hn] at hm
      obtain rfl := Option.some.inj hm
      exact hq
    · by_cases hold : lookup p w.tconn.nodes = none
      · by_cases hpre : p <+: pathJoin cur x
        · have hpc : p <+: cur := by
            rcases isPrefix_pathJoin hpre with h | h
            · exact absurd h hpq
            · exact h
          exact absurd hold (hv p m hpc hp hpne hm hmper)
        · have : lookup p c2.nodes = none := by rw [hs.outside p hpre]; exact hold
          exact absurd this hin
      · have hsame : lookup p c2.nodes = lookup p w.tconn.nodes := hs.others p hpq hold
        show lookup p c2.nodes = _
        rw [hsame]
        exact hg.content p m hp hpne hm hmper hold
  · intro p hp
    show lookup p c2.nodes ≠ none
    by_cases hpq : p = pathJoin cur x
    · subst hpq; rw [hq]; simp
    · rw [hs.others p hpq hp]; exact hp

theorem grows_trans {w1 w2 w3 : World} (h12 : Grows w1 w2) (h23 : Grows w2 w3) : Grows w1 w3 :=
  fun p hp => h23 p (h12 p hp)

theorem visit_replicates (recurse : Path → World → Outcome) (src : List (Path × ZNode))
    (top cur : Path) (x : String) (htop : top <+: cur)
    (hin : lookup (pathJoin cur x) src ≠ none)
    (hrec : ∀ w, Good src top w → AncestorsPresent src top (pathJoin cur x) w →
      ∃ w2, recurse (pathJoin cur x) w = .completed w2 ∧ Good src top w2 ∧ Grows w w2 ∧
        ∀ p n, pathJoin cur x <+: p → p ≠ pathJoin cur x → lookup p src = some n →
          n.stat.EphemeralOwner = 0 → lookup p w2.tconn.nodes ≠ none)
    (w : World) (hg : Good src top w) (hv : AncestorsPresent src top cur w) :
    ∃ w2, visit recurse ⟨src, []⟩ (pathJoin cur x) w = .completed w2 ∧ Good src top w2 ∧
      Grows w w2 ∧ Covered src (pathJoin cur x) w2 := by
  cases hl : lookup (pathJoin cur x) src with
  | none => exact absurd hl hin
  | some n =>
    unfold visit
    rw [Get_ok src _ n hl]
    simp only
    split
    · -- a persistent node: replicate it, then recurse
      rename_i hper
      obtain ⟨s, c2, hrun, hg2, hgr2, hq2⟩ := create_step src top cur x n w
        (w.sreads ++ [(Op.get, pathJoin cur x)]) htop hl hper hg hv
      rw [hrun]
      simp only
      have hv2 : AncestorsPresent src top (pathJoin cur x)
          ⟨c2, w.sreads ++ [(Op.get, pathJoin cur x)]⟩ := by
        intro r m hr htr hrne hm hmper
        rcases isPrefix_pathJoin hr with h | h
        · subst h; exact hq2
        · exact hgr2 r (hv r m h htr hrne hm hmper)
      obtain ⟨w3, hrun3, hg3, hgr3, hcov3⟩ := hrec _ hg2 hv2
      refine ⟨w3, hrun3, hg3, grows_trans hgr2 hgr3, ?_⟩
      intro p m hp hm hmper
      by_cases hpq : p = pathJoin cur x
      · subst hpq; exact hgr3 _ hq2
      · exact hcov3 p m hp hpq hm hmper
    · -- an ephemeral node: only recurse
      rename_i hper
      have hg1 : Good src top ⟨w.tconn, w.sreads ++ [(Op.get, pathJoin cur x)]⟩ :=
        ⟨hg.faults, hg.wf, hg.content⟩
      have hv1 : AncestorsPresent src top (pathJoin cur x)
          ⟨w.tconn, w.sreads ++ [(Op.get, pathJoin cur x)]⟩ := by
        intro r m hr htr hrne hm hmper
        rcases isPrefix_pathJoin hr with h | h
        · subst h
          rw [hl] at hm
          obtain rfl := Option.some.inj hm
          exact absurd hmper hper
        · exact hv r m h htr hrne hm hmper
      obtain ⟨w3, hrun3, hg3, hgr3, hcov3⟩ := hrec _ hg1 hv1
      refine ⟨w3, hrun3, hg3, fun p hp => hgr3 p hp, ?_⟩
      intro p m hp hm hmper
      by_cases hpq : p = pathJoin cur x
      · subst hpq
        rw [hl] at hm
        obtain rfl := Option.some.inj hm
        exact absurd hmper hper
      · exact hcov3 p m hp hpq hm hmper

theorem walkChildren_replicates (recurse : Path → World → Outcome) (src : List (Path × ZNode))
    (top cur : Path) (htop : top <+: cur) (names : List String)
    (hin : ∀ x ∈ names, lookup (pathJoin cur x) src ≠ none)
    (hrec : ∀ x ∈ names, ∀ w, Good src top w → AncestorsPresent src top (pathJoin cur x) w →
      ∃ w2, recurse (pathJoin cur x) w = .completed w2 ∧ Good src top w2 ∧ Grows w w2 ∧
        ∀ p n, pathJoin cur x <+: p → p ≠ pathJoin cur x → lookup p src = some n →
          n.stat.EphemeralOwner = 0 → lookup p w2.tconn.nodes ≠ none) :
    ∀ w : World, Good src top w → AncestorsPresent src top cur w →
      ∃ w2, walkChildren recurse cur ⟨src, []⟩ [] names w = .completed w2 ∧ Good src top w2 ∧
        Grows w w2 ∧ ∀ x ∈ names, Covered src (pathJoin cur x) w2 := by
  induction names with
  | nil => intro w hg _; exact ⟨w, rfl, hg, fun _ h => h, by simp⟩
  | cons x rest ih =>
    intro w hg hv
    rw [walkChildren_cons]
    have hnot : ¬ IsPathExcluded [] (pathStr (pathJoin cur x)) = true := by simp [IsPathExcluded]
    rw [if_neg hnot]
    obtain ⟨w3, hv3, hg3, hgr3, hcov3⟩ := visit_replicates recurse src top cur x htop
      (hin x (List.mem_cons_self _ _)) (hrec x (List.mem_cons_self _ _)) w hg hv
    rw [hv3]
    have hvv : AncestorsPresent src top cur w3 :=
      fun r m hr htr hrne hm hmper => hgr3 r (hv r m hr htr hrne hm hmper)
    obtain ⟨w4, hrun4, hg4, hgr4, hcov4⟩ := ih (fun y hy => hin y (List.mem_cons_of_mem _ hy))
      (fun y hy => hrec y (List.mem_cons_of_mem _ hy)) w3 hg3 hvv
    refine ⟨w4, hrun4, hg4, grows_trans hgr3 hgr4, ?_⟩
    intro y hy
    rcases List.mem_cons.1 hy with h | h
    · subst h
      intro p m hp hm hmper
      exact hgr4 p (hcov3 p m hp hm hmper)
    · exact hcov4 y h

theorem exists_child_of_isPrefix {cur p : Path} (h : cur <+: p) (hne : p ≠ cur) :
    ∃ x, pathJoin cur x <+: p := by
  obtain ⟨t, rfl⟩ := h
  cases t with
  | nil => simp at hne
  | cons x t => exact ⟨x, ⟨t, by simp [pathJoin]⟩⟩

theorem walk_replicates (src : List (Path × ZNode)) (top : Path) (hsrc : WellFormed src)
    (fuel : Nat) :
    ∀ (cur : Path) (w : World), top <+: cur → lookup cur src ≠ none →
      maxDepth src < fuel + cur.length → Good src top w → AncestorsPresent src top cur w →
      ∃ w2, walk fuel cur ⟨src, []⟩ w [] = .completed w2 ∧ Good src top w2 ∧ Grows w w2 ∧
        ∀ p n, cur <+: p → p ≠ cur → lookup p src = some n →
          n.stat.EphemeralOwner = 0 → lookup p w2.tconn.nodes ≠ none := by
  induction fuel with
  | zero =>
    intro cur w _ hcur hlen
    have := length_le_maxDepth hcur
    omega
  | succ fuel ih =>
    intro cur w htop hcur hlen hg hv
    rw [walk_succ, Children_ok src cur hcur]
    simp only
    have hg0 : Good src top ⟨w.tconn, w.sreads ++ [(Op.children, cur)]⟩ :=
      ⟨hg.faults, hg.wf, hg.content⟩
    obtain ⟨w2, hrun, hg2, hgr2, hcov2⟩ := walkChildren_replicates
      (fun p w1 => walk fuel p ⟨src, []⟩ w1 []) src top cur htop
      (src.filterMap (fun e => childName cur e.1))
      (fun x hx => (mem_children_iff src cur x).1 hx)
      (fun x hx w3 hg3 hv3 => ih (pathJoin cur x) w3
        (htop.trans (isPrefix_pathJoin_self cur x)) ((mem_children_iff src cur x).1 hx)
        (by simp only [pathJoin, List.length_append, List.length_singleton]; omega) hg3 hv3)
      ⟨w.tconn, w.sreads ++ [(Op.children, cur)]⟩ hg0 hv
    refine ⟨w2, hrun, hg2, fun p hp => hgr2 p hp, ?_⟩
    intro p n hp hpne hn hper
    obtain ⟨x, hx⟩ := exists_child_of_isPrefix hp hpne
    have hxin : lookup (pathJoin cur x) src ≠ none :=
      hsrc.of_isPrefix (by rw [hn]; simp) hx
    exact hcov2 x ((mem_children_iff src cur x).2 hxin) p n hx hn hper

/-- C1: for a well-formed source tree that holds `root`, an empty exclusion
set and a target that initially holds only `/`, `walk` completes (given a
recursion budget above the depth of the source), and afterwards every
persistent node of the source strictly below `root`, also one below an
ephemeral node, exists in the target with exactly its source payload and the
`world:anyone` access-control list with all permissions. -/
theorem walk_replicates_persistent_descendants (src : List (Path × ZNode)) (rootNode : ZNode)
    (root : Path) (fuel : Nat) (hsrc : WellFormed src) (hroot : lookup root src ≠ none)
    (hfuel : maxDepth src < fuel) :
    ∃ w2, walk fuel root ⟨src, []⟩ ⟨⟨[([], rootNode)], []⟩, []⟩ [] = .completed w2 ∧
      ∀ p n, root <+: p → p ≠ root → lookup p src = some n → n.stat.EphemeralOwner = 0 →
        lookup p w2.tconn.nodes = some ⟨n.data, [⟨PermAll, "world", "anyone"⟩], ⟨0, 0⟩⟩ := by
  have hg0 : Good src root ⟨⟨[([], rootNode)], []⟩, []⟩ := by
    refine ⟨rfl, wellFormed_rootOnly _, ?_⟩
    intro p n hp hpne _ _ hin
    have hp0 : p ≠ [] := by
      intro e; subst e
      exact hpne (List.prefix_nil.1 hp).symm
    have : ¬ [] = p := fun e => hp0 e.symm
    simp [lookup, this] at hin
  have hv0 : AncestorsPresent src root root ⟨⟨[([], rootNode)], []⟩, []⟩ := by
    intro r n hr htr hrne
    exact absurd (List.IsPrefix.eq_of_length hr
      (le_antisymm hr.length_le htr.length_le)) hrne
  obtain ⟨w2, hrun, hg2, -, hcov⟩ := walk_replicates src root hsrc fuel root _
    (List.prefix_refl _) hroot (by omega) hg0 hv0
  exact ⟨w2, hrun, fun p n hp hpne hn hper =>
    hg2.content p n hp hpne hn hper (hcov p n hp hpne hn hper)⟩

/-- Witness for C1: `/r3/x` is persistent, `/r3/y` is ephemeral and has the
persistent child `/r3/y/c`. -/
theorem walk_replicates_persistent_descendants_witness :
    ∃ w2, walk 4 ["r3"]
        ⟨[([], ⟨[], WorldACL PermAll, ⟨0, 0⟩⟩), (["r3"], ⟨[], WorldACL PermAll, ⟨0, 0⟩⟩),
          (["r3", "x"], ⟨[118, 49], WorldACL PermRead, ⟨3, 0⟩⟩),
          (["r3", "y"], ⟨[5], WorldACL PermAll, ⟨0, 7⟩⟩),
          (["r3", "y", "c"], ⟨[9], WorldACL PermAll, ⟨0, 0⟩⟩)], []⟩
        ⟨⟨[([], ⟨[], WorldACL PermAll, ⟨0, 0⟩⟩)], []⟩, []⟩ [] = .completed w2 ∧
      ∀ p n, ["r3"] <+: p → p ≠ ["r3"] →
        lookup p [([], ⟨[], WorldACL PermAll, ⟨0, 0⟩⟩), (["r3"], ⟨[], WorldACL PermAll, ⟨0, 0⟩⟩),
          (["r3", "x"], ⟨[118, 49], WorldACL PermRead, ⟨3, 0⟩⟩),
          (["r3", "y"], ⟨[5], WorldACL PermAll, ⟨0, 7⟩⟩),
          (["r3", "y", "c"], ⟨[9], WorldACL PermAll, ⟨0, 0⟩⟩)] = some n →
        n.stat.EphemeralOwner = 0 →
        lookup p w2.tconn.nodes = some ⟨n.data, [⟨PermAll, "world", "anyone"⟩], ⟨0, 0⟩⟩ :=
  walk_replicates_persistent_descendants
    [([], ⟨[], WorldACL PermAll, ⟨0, 0⟩⟩), (["r3"], ⟨[], WorldACL PermAll, ⟨0, 0⟩⟩),
      (["r3", "x"], ⟨[118, 49], WorldACL PermRead, ⟨3, 0⟩⟩),
      (["r3", "y"], ⟨[5], WorldACL PermAll, ⟨0, 7⟩⟩),
      (["r3", "y", "c"], ⟨[9], WorldACL PermAll, ⟨0, 0⟩⟩)]
    ⟨[], WorldACL PermAll, ⟨0, 0⟩⟩ ["r3"] 4 (wellFormed_of_check _ (by decide)) (by decide)
    (by decide)

/-! ## The entries of a comma-separated list -/

theorem joinComma_append_comma (x y : List Char) (rest : List (List Char)) :
    joinComma ((x ++ ',' :: y) :: rest) = x ++ ',' :: joinComma (y :: rest) := by
  cases rest with
  | nil => simp [joinComma]
  | cons q rest => simp [joinComma]

theorem intercalate_go_data (parts : List String) :
    ∀ acc : String, (String.intercalate.go acc "," parts).data
      = joinComma (acc.data :: parts.map String.data) := by
  induction parts with
  | nil => intro acc; simp [String.intercalate.go, joinComma]
  | cons a parts ih =>
    intro acc
    rw [String.intercalate.go, ih]
    have h : (acc ++ "," ++ a).data = acc.data ++ ',' :: a.data := by
      simp [String.data_append]
    rw [h, List.map_cons, joinComma_append_comma]
    simp [joinComma]

theorem intercalate_data (parts : List String) :
    (String.intercalate "," parts).data = joinComma (parts.map String.data) := by
  cases parts with
  | nil => rfl
  | cons a parts => exact intercalate_go_data parts a

theorem splitComma_append (p tl hd : List Char) (r : List (List Char))
    (hp : ',' ∉ p) (htl : splitComma tl = hd :: r) :
    splitComma (p ++ tl) = (p ++ hd) :: r := by
  induction p with
  | nil => simpa using htl
  | cons c p ih =>
    have hc : ¬ c = ',' := fun e => hp (by simp [e])
    have hp2 : ',' ∉ p := fun h => hp (List.mem_cons_of_mem _ h)
    rw [List.cons_append, splitComma, if_neg hc, ih hp2]
    rfl

theorem splitComma_joinComma (pieces : List (List Char)) (hne : pieces ≠ [])
    (hcomma : ∀ p ∈ pieces, ',' ∉ p) : splitComma (joinComma pieces) = pieces := by
  induction pieces with
  | nil => exact absurd rfl hne
  | cons p rest ih =>
    cases rest with
    | nil =>
      have := splitComma_append p [] [] [] (hcomma p (List.mem_cons_self _ _)) rfl
      simpa [joinComma] using this
    | cons q rest =>
      have hrest := ih (by simp) (fun x hx => hcomma x (List.mem_cons_of_mem _ hx))
      have htl : splitComma (',' :: joinComma (q :: rest)) = [] :: q :: rest := by
        rw [splitComma, if_pos rfl, hrest]
      have := splitComma_append p _ _ _ (hcomma p (List.mem_cons_self _ _)) htl
      simpa [joinComma] using this

theorem stringsSplitComma_intercalate (parts : List String) (hne : parts ≠ [])
    (hcomma : ∀ p ∈ parts, ',' ∉ p.data) :
    stringsSplitComma (String.intercalate "," parts) = parts := by
  unfold stringsSplitComma
  rw [intercalate_data, splitComma_joinComma _ (by simpa using hne)
    (by simpa using hcomma), List.map_map]
  have : (String.mk ∘ String.data) = id := by
    funext s; rfl
  rw [this, List.map_id]

theorem intercalate_stringsSplitComma (s : String) :
    String.intercalate "," (stringsSplitComma s) = s := by
  apply String.ext
  rw [intercalate_data]
  unfold stringsSplitComma
  rw [List.map_map]
  have : (String.data ∘ String.mk) = id := by
    funext l; rfl
  rw [this, List.map_id, splitComma_join]

/-- C10: the entries of `zkAddr` are the pieces between its commas (joined
with commas they give `zkAddr` back, none holds a comma, and they are the only
such list).  With the per-entry resolution taken as a function,
`resolveZkAddr` fails exactly when no entry resolves; otherwise it returns the
non-empty list of the resolved values of the resolvable entries, in input
order, and nothing else. -/
theorem resolveZkAddr_keeps_resolvable (resolveIPv4Addr : String → Except String String)
    (zkAddr : String) :
    (String.intercalate "," (stringsSplitComma zkAddr) = zkAddr ∧
      stringsSplitComma zkAddr ≠ [] ∧
      (∀ part ∈ stringsSplitComma zkAddr, ',' ∉ part.data) ∧
      (∀ parts : List String, parts ≠ [] → (∀ p ∈ parts, ',' ∉ p.data) →
        String.intercalate "," parts = zkAddr → stringsSplitComma zkAddr = parts)) ∧
    ((∃ e, resolveZkAddr resolveIPv4Addr zkAddr = .error e) ↔
      ∀ part ∈ stringsSplitComma zkAddr, ∃ e, resolveIPv4Addr part = .error e) ∧
    (∀ r, resolveZkAddr resolveIPv4Addr zkAddr = .ok r →
      r ≠ [] ∧ r = resolvedEntries resolveIPv4Addr (stringsSplitComma zkAddr)) ∧
    ((∃ part ∈ stringsSplitComma zkAddr, ∃ r, resolveIPv4Addr part = .ok r) →
      resolveZkAddr resolveIPv4Addr zkAddr
        = .ok (resolvedEntries resolveIPv4Addr (stringsSplitComma zkAddr))) ∧
    stringsSplitComma "zk1:2181,zk2:2181,zk3:2181" = ["zk1:2181", "zk2:2181", "zk3:2181"] ∧
    resolveZkAddr (fun part => if part = "zk2:2181" then .error "no IPv4addr"
        else .ok ("ip-of-" ++ part)) "zk1:2181,zk2:2181,zk3:2181"
      = .ok ["ip-of-zk1:2181", "ip-of-zk3:2181"] := by
  have hsplit : String.intercalate "," (stringsSplitComma zkAddr) = zkAddr ∧
      stringsSplitComma zkAddr ≠ [] ∧
      (∀ part ∈ stringsSplitComma zkAddr, ',' ∉ part.data) ∧
      (∀ parts : List String, parts ≠ [] → (∀ p ∈ parts, ',' ∉ p.data) →
        String.intercalate "," parts = zkAddr → stringsSplitComma zkAddr = parts) := by
    refine ⟨intercalate_stringsSplitComma zkAddr, ?_, ?_, ?_⟩
    · unfold stringsSplitComma
      simpa using splitComma_ne_nil zkAddr.data
    · intro part hp
      unfold stringsSplitComma at hp
      obtain ⟨piece, hpiece, rfl⟩ := List.mem_map.1 hp
      exact splitComma_no_comma zkAddr.data piece hpiece
    · intro parts hne hcomma hjoin
      rw [← hjoin]
      exact stringsSplitComma_intercalate parts hne hcomma
  refine ⟨hsplit, ?_⟩
  have hloop : resolveLoop resolveIPv4Addr (stringsSplitComma zkAddr) []
      = resolvedEntries resolveIPv4Addr (stringsSplitComma zkAddr) := by
    rw [resolveLoop_eq]; rfl
  have hnil : resolvedEntries resolveIPv4Addr (stringsSplitComma zkAddr) = [] ↔
      ∀ part ∈ stringsSplitComma zkAddr, ∃ e, resolveIPv4Addr part = .error e := by
    unfold resolvedEntries
    rw [List.filterMap_eq_nil_iff]
    constructor
    · intro h part hp
      have := h part hp
      cases hr : resolveIPv4Addr part with
      | error e => exact ⟨e, rfl⟩
      | ok r => rw [hr] at this; simp at this
    · intro h part hp
      obtain ⟨e, he⟩ := h part hp
      rw [he]
  unfold resolveZkAddr
  simp only [hloop, List.length_eq_zero]
  by_cases hg : resolvedEntries resolveIPv4Addr (stringsSplitComma zkAddr) = []
  · rw [if_pos hg]
    refine ⟨⟨fun _ => hnil.1 hg, fun _ => ⟨_, rfl⟩⟩, fun r h => by simp at h, ?_, by decide,
      by rfl⟩
    rintro ⟨part, hp, r, hr⟩
    obtain ⟨e, he⟩ := hnil.1 hg part hp
    rw [he] at hr; simp at hr
  · rw [if_neg hg]
    refine ⟨⟨fun h => ?_, fun h => absurd (hnil.2 h) hg⟩, fun r h => ?_, fun _ => rfl,
      by decide, by rfl⟩
    · obtain ⟨e, he⟩ := h; simp at he
    · simp only [Except.ok.injEq] at h
      subst h; exact ⟨hg, rfl⟩

end ZkBackup
